import Mathlib

/-!
Verification of the maze-solving core of `src/chatwindow.cpp`.

The pipeline under study: `buildGrid` rasterizes a cropped maze image into a
boolean occupancy grid, `findOpenings` picks two border openings, the border
is sealed except for those openings, `bfsPath` runs a breadth-first search
from start to goal, `pathToMoves` compresses the cell path into run-length
moves, and the solver normalizes cell centers into `[0,1]` coordinates.

The embedding below translates those functions into Lean.  Machine `int`
values become `ℤ`, `double` arithmetic in the rasterizer and the coordinate
mapper becomes exact `ℚ` arithmetic (the source values are small enough that
the only divergence from IEEE doubles is at exact threshold ties, which are
noted where relevant), `QVector` becomes `List`/functional arrays with
explicit bounds checks, and operations whose C++ counterpart could access
memory out of range return `Option` with `none` as the out-of-range outcome.
-/

namespace Maze

/-- A grid point, mirroring `QPoint` (integer x = column, y = row). -/
abbrev Point := ℤ × ℤ

/-- A boolean occupancy grid: a list of rows, `grid[y][x]` in the source is
`(g.getD y []).getD x false` here; `true` means traversable. -/
abbrev Grid := List (List Bool)

/-- Read the grid at column `x`, row `y` (ℕ indices); out-of-range reads
default to `false`.  In the source every `grid[ny][nx]` access is preceded by
an explicit range check, so the default is never observable on the
rectangular grids the program builds. -/
def cellAt (g : Grid) (x y : ℕ) : Bool := (g.getD y []).getD x false

/-- The grid is rectangular with `gw` columns and `gh` rows, the shape
`buildGrid` always produces. -/
def Rect (g : Grid) (gw gh : ℕ) : Prop :=
  g.length = gh ∧ ∀ row ∈ g, row.length = gw

/-! ## MoveCompressor: `pathToMoves` (src/chatwindow.cpp lines 199-251) -/

/-- `dirFromDelta` from the source: map a unit cell delta to a direction
letter, anything else to `"?"`. -/
def dirFromDelta (dx dy : ℤ) : String :=
  if dx = 1 ∧ dy = 0 then "E"
  else if dx = -1 ∧ dy = 0 then "W"
  else if dx = 0 ∧ dy = 1 then "S"
  else if dx = 0 ∧ dy = -1 then "N"
  else "?"

/-- The accumulation loop of `pathToMoves`: walk the remaining path with the
previous cell, the current run direction (`curDir`) and its length
(`curSteps`), emitting a move at each direction change and a final move when
the loop ends with an open run.  A `"?"` delta only advances `prev`. -/
def movesGo : List Point → Point → String → ℕ → List (String × ℕ)
  | [], _, curDir, curSteps =>
      if curSteps > 0 then [(curDir, curSteps)] else []
  | p :: rest, prev, curDir, curSteps =>
      let d := dirFromDelta (p.1 - prev.1) (p.2 - prev.2)
      if d = "?" then movesGo rest p curDir curSteps
      else if curSteps = 0 then movesGo rest p d 1
      else if d = curDir then movesGo rest p curDir (curSteps + 1)
      else (curDir, curSteps) :: movesGo rest p d 1

/-- The move list computed by `pathToMoves` before serialization: start with
`prev = gridPath[0]`, an empty run, and walk the tail. -/
def movesOf : List Point → List (String × ℕ)
  | [] => []
  | p :: rest => movesGo rest p "" 0

/-- `pathToMoves` itself: paths shorter than two cells yield the string
`"\x7b\x7d"`; otherwise the moves are serialized as a JSON-like list. -/
def pathToMoves (gridPath : List Point) : String :=
  if gridPath.length < 2 then "\x7b\x7d"
  else
    let parts := (movesOf gridPath).map fun m =>
      "\x7b\"dir\":\"" ++ m.1 ++ "\",\"steps\":" ++ toString m.2 ++ "\x7d"
    "[" ++ String.intercalate "," parts ++ "]"

/-- The per-step direction sequence of a path: one direction letter per
consecutive pair of cells. -/
def dirsFrom : Point → List Point → List String
  | _, [] => []
  | prev, p :: rest => dirFromDelta (p.1 - prev.1) (p.2 - prev.2) :: dirsFrom p rest

/-- Direction sequence of a whole path (empty for paths shorter than 2). -/
def dirList : List Point → List String
  | [] => []
  | p :: rest => dirsFrom p rest

lemma length_dropWhile_le_self {α : Type} (p : α → Bool) (l : List α) :
    (l.dropWhile p).length ≤ l.length := by
  induction l with
  | nil => simp
  | cons a t ih =>
      rw [List.dropWhile_cons]
      by_cases h : p a = true
      · simp only [h, if_true]
        exact Nat.le_succ_of_le ih
      · simp [h]

/-- Specification-side run-length encoding: each output move is a maximal run
of equal consecutive directions together with its length. -/
def rle : List String → List (String × ℕ)
  | [] => []
  | d :: ds =>
      (d, 1 + (ds.takeWhile (· == d)).length) :: rle (ds.dropWhile (· == d))
termination_by l => l.length
decreasing_by
  simp only [List.length_cons]
  exact Nat.lt_succ_of_le (length_dropWhile_le_self (· == d) ds)

/-- `rle` with a pending open run `(d, n)`: matches the loop state of
`movesGo` where `curDir = d`, `curSteps = n ≥ 1`. -/
def rleCont (d : String) (n : ℕ) : List String → List (String × ℕ)
  | [] => [(d, n)]
  | e :: es => if e = d then rleCont d (n + 1) es else (d, n) :: rleCont e 1 es

lemma rleCont_eq_rle (d : String) (l : List String) (n : ℕ) :
    rleCont d n l = (d, n + (l.takeWhile (· == d)).length) :: rle (l.dropWhile (· == d)) := by
  induction l generalizing d n with
  | nil => simp [rleCont, rle]
  | cons e es ih =>
      by_cases h : e = d
      · subst h
        rw [rleCont, if_pos rfl, ih, List.takeWhile_cons, List.dropWhile_cons]
        simp only [beq_self_eq_true, if_pos, List.length_cons]
        have : n + 1 + (es.takeWhile (· == e)).length
            = n + ((es.takeWhile (· == e)).length + 1) := by omega
        rw [this]
      · have hbe : (e == d) = false := beq_false_of_ne h
        rw [rleCont, if_neg h, List.takeWhile_cons, List.dropWhile_cons, hbe]
        simp only [Bool.false_eq_true, if_false, List.length_nil, Nat.add_zero]
        congr 1
        rw [rle, ih e 1]

lemma rle_cons (d : String) (ds : List String) :
    rle (d :: ds) = rleCont d 1 ds := by
  rw [rleCont_eq_rle, rle]

/-- Filter out the `"?"` markers from a direction sequence. -/
def realDirs (l : List String) : List String := l.filter fun d => !(d == "?")

lemma realDirs_nil : realDirs [] = [] := rfl

lemma realDirs_cons (d : String) (l : List String) :
    realDirs (d :: l) = if d = "?" then realDirs l else d :: realDirs l := by
  by_cases h : d = "?"
  · subst h
    simp [realDirs, List.filter_cons]
  · have hbe : (d == "?") = false := beq_false_of_ne h
    simp [realDirs, List.filter_cons, hbe, h]

lemma movesGo_eq_rleCont (rest : List Point) (prev : Point) (d : String) (n : ℕ)
    (hn : 1 ≤ n) :
    movesGo rest prev d n = rleCont d n (realDirs (dirsFrom prev rest)) := by
  induction rest generalizing prev d n with
  | nil =>
      have h0 : 0 < n := hn
      simp [movesGo, dirsFrom, realDirs, rleCont, h0]
  | cons p t ih =>
      have hn0 : ¬ n = 0 := by omega
      simp only [movesGo, dirsFrom]
      rw [realDirs_cons]
      by_cases hq : dirFromDelta (p.1 - prev.1) (p.2 - prev.2) = "?"
      · rw [if_pos hq, if_pos hq, ih p d n hn]
      · rw [if_neg hq, if_neg hq, if_neg hn0]
        by_cases hde : dirFromDelta (p.1 - prev.1) (p.2 - prev.2) = d
        · rw [if_pos hde, rleCont, if_pos hde]
          exact ih p d (n + 1) (by omega)
        · rw [if_neg hde, rleCont, if_neg hde, ih p _ 1 le_rfl]

lemma movesGo_zero_eq_rle (rest : List Point) (prev : Point) (d : String) :
    movesGo rest prev d 0 = rle (realDirs (dirsFrom prev rest)) := by
  induction rest generalizing prev d with
  | nil => simp [movesGo, dirsFrom, realDirs, rle]
  | cons p t ih =>
      simp only [movesGo, dirsFrom]
      rw [realDirs_cons]
      by_cases hq : dirFromDelta (p.1 - prev.1) (p.2 - prev.2) = "?"
      · rw [if_pos hq, if_pos hq, ih p d]
      · rw [if_neg hq, if_neg hq, if_pos trivial, rle_cons,
          movesGo_eq_rleCont t p _ 1 le_rfl]

/-- Main structural fact about the move compressor: the emitted moves are the
run-length encoding of the path's direction sequence with `"?"` deltas
dropped. -/
lemma movesOf_eq_rle (p : List Point) : movesOf p = rle (realDirs (dirList p)) := by
  cases p with
  | nil =>
      show movesOf [] = rle (realDirs [])
      rw [realDirs_nil, rle]
      rfl
  | cons p0 rest =>
      show movesGo rest p0 "" 0 = rle (realDirs (dirsFrom p0 rest))
      exact movesGo_zero_eq_rle rest p0 ""

/-- C8: `pathToMoves` merges consecutive same-direction steps into one move
with an incremented step count and starts a new move at each direction
change: its move list is exactly the run-length encoding (maximal runs of
equal consecutive directions, each with its length) of the path's
direction-per-step sequence.  In particular the cell path
`[(0,0),(1,0),(2,0),(2,1)]` compresses to `[("E",2),("S",1)]`, i.e.
`[{East,2},{South,1}]` in the spec's notation. -/
theorem c8_moves_run_length :
    (∀ p : List Point, movesOf p = rle (realDirs (dirList p))) ∧
      movesOf [(0,0),(1,0),(2,0),(2,1)] = [("E", 2), ("S", 1)] := by
  refine ⟨movesOf_eq_rle, ?_⟩
  decide

/-- C9: a cell path with fewer than two cells yields no moves; the serialized
form returned by `pathToMoves` is the empty-object string (two braces). -/
theorem c9_short_path_no_moves (p : List Point) (h : p.length < 2) :
    movesOf p = [] ∧ pathToMoves p = "\x7b\x7d" := by
  refine ⟨?_, by simp [pathToMoves, h]⟩
  match p, h with
  | [], _ => rfl
  | [a], _ => rfl

/-- Witness for C9 at the one-cell path `[(0,0)]`. -/
theorem c9_short_path_no_moves_witness :
    movesOf [((0 : ℤ), (0 : ℤ))] = [] ∧ pathToMoves [((0 : ℤ), (0 : ℤ))] = "\x7b\x7d" :=
  c9_short_path_no_moves [(0, 0)] (by decide)

/-! ## OpeningFinder: `findOpenings` (src/chatwindow.cpp lines 124-148)

The source scans with two loops: for each `x` it tests the top-row cell and
then the bottom-row cell, and appends each free one; then for each `y` it
tests the left-column cell and then the right-column cell.  Candidates on two
border lines (corners; every cell when the grid has a single row or column)
are therefore appended once per border line they lie on. -/

/-- The candidate vector built by `findOpenings`' two loops, as left folds
that append to the accumulator exactly as the source pushes to `openings`. -/
def openingsList (grid : Grid) : List Point :=
  let gh := grid.length
  let gw := (grid.headD []).length
  (List.range gh).foldl
    (fun acc y =>
      let acc := if cellAt grid 0 y then acc ++ [((0 : ℤ), (y : ℤ))] else acc
      if cellAt grid (gw - 1) y then acc ++ [(((gw - 1 : ℕ) : ℤ), (y : ℤ))] else acc)
    ((List.range gw).foldl
      (fun acc x =>
        let acc := if cellAt grid x 0 then acc ++ [((x : ℤ), (0 : ℤ))] else acc
        if cellAt grid x (gh - 1) then acc ++ [((x : ℤ), ((gh - 1 : ℕ) : ℤ))] else acc)
      [])

/-- `findOpenings`: `none` models the source returning `false` without
assigning `start`/`goal`; `some (start, goal)` models success with `start`
the front and `goal` the back of the candidate vector. -/
def findOpenings (grid : Grid) : Option (Point × Point) :=
  if grid.length = 0 then none
  else
    let os := openingsList grid
    if os.length < 2 then none
    else some (os.headD (0, 0), os.getLastD (0, 0))

/-- The candidate list in the order the spec claims: all of the top row left
to right, then all of the bottom row, then the left column top to bottom,
then the right column.  Modelled from the spec's words for comparison with
the source's actual scan order. -/
def specOpenings (grid : Grid) : List Point :=
  let gh := grid.length
  let gw := (grid.headD []).length
  ((List.range gw).filter (fun x => cellAt grid x 0)).map
      (fun x => (((x : ℕ) : ℤ), (0 : ℤ)))
    ++ ((List.range gw).filter (fun x => cellAt grid x (gh - 1))).map
      (fun x => (((x : ℕ) : ℤ), ((gh - 1 : ℕ) : ℤ)))
    ++ ((List.range gh).filter (fun y => cellAt grid 0 y)).map
      (fun y => ((0 : ℤ), ((y : ℕ) : ℤ)))
    ++ ((List.range gh).filter (fun y => cellAt grid (gw - 1) y)).map
      (fun y => (((gw - 1 : ℕ) : ℤ), ((y : ℕ) : ℤ)))

/-- The source's actual candidate order, written as a flat map: for each `x`
left to right, the top cell then the bottom cell; afterwards for each `y` top
to bottom, the left cell then the right cell. -/
def scanOpenings (grid : Grid) : List Point :=
  let gh := grid.length
  let gw := (grid.headD []).length
  ((List.range gw).flatMap fun x =>
      (if cellAt grid x 0 then [(((x : ℕ) : ℤ), (0 : ℤ))] else [])
        ++ (if cellAt grid x (gh - 1) then [(((x : ℕ) : ℤ), ((gh - 1 : ℕ) : ℤ))] else []))
    ++ ((List.range gh).flatMap fun y =>
      (if cellAt grid 0 y then [((0 : ℤ), ((y : ℕ) : ℤ))] else [])
        ++ (if cellAt grid (gw - 1) y then [(((gw - 1 : ℕ) : ℤ), ((y : ℕ) : ℤ))] else []))

lemma foldl_append_eq_flatMap {α β : Type} (h : α → List β) (l : List α) (init : List β) :
    l.foldl (fun acc x => acc ++ h x) init = init ++ l.flatMap h := by
  induction l generalizing init with
  | nil => simp
  | cons a t ih => simp [List.foldl_cons, ih]

lemma two_if_append {β : Type} (acc : List β) (c1 c2 : Bool) (p1 p2 : β) :
    (if c2 then (if c1 then acc ++ [p1] else acc) ++ [p2]
      else (if c1 then acc ++ [p1] else acc))
      = acc ++ ((if c1 then [p1] else []) ++ (if c2 then [p2] else [])) := by
  cases c1 <;> cases c2 <;> simp

lemma foldl_two_if_eq_flatMap {α β : Type} (l : List α) (c1 c2 : α → Bool)
    (p1 p2 : α → β) (init : List β) :
    l.foldl (fun acc x =>
        if c2 x then (if c1 x then acc ++ [p1 x] else acc) ++ [p2 x]
        else (if c1 x then acc ++ [p1 x] else acc)) init
      = init ++ l.flatMap
          (fun x => (if c1 x then [p1 x] else []) ++ (if c2 x then [p2 x] else [])) := by
  have hbody : (fun (acc : List β) x =>
      if c2 x then (if c1 x then acc ++ [p1 x] else acc) ++ [p2 x]
      else (if c1 x then acc ++ [p1 x] else acc))
      = fun acc x => acc ++ ((if c1 x then [p1 x] else []) ++ (if c2 x then [p2 x] else [])) := by
    funext acc x
    exact two_if_append acc (c1 x) (c2 x) (p1 x) (p2 x)
  rw [hbody, foldl_append_eq_flatMap]

lemma openingsList_eq_scan (grid : Grid) : openingsList grid = scanOpenings grid := by
  simp only [openingsList, scanOpenings]
  rw [foldl_two_if_eq_flatMap (List.range (grid.headD []).length)
      (fun x => cellAt grid x 0) (fun x => cellAt grid x (grid.length - 1))
      (fun x => (((x : ℕ) : ℤ), (0 : ℤ)))
      (fun x => (((x : ℕ) : ℤ), ((grid.length - 1 : ℕ) : ℤ))) []]
  rw [foldl_two_if_eq_flatMap (List.range grid.length)
      (fun y => cellAt grid 0 y) (fun y => cellAt grid ((grid.headD []).length - 1) y)
      (fun y => ((0 : ℤ), ((y : ℕ) : ℤ)))
      (fun y => ((((grid.headD []).length - 1 : ℕ) : ℤ), ((y : ℕ) : ℤ)))]
  rw [List.nil_append]

lemma findOpenings_eq_scan_form (grid : Grid) :
    findOpenings grid =
      if 2 ≤ (scanOpenings grid).length
      then some ((scanOpenings grid).headD (0, 0), (scanOpenings grid).getLastD (0, 0))
      else none := by
  unfold findOpenings
  rw [openingsList_eq_scan]
  by_cases h0 : grid.length = 0
  · rw [if_pos h0]
    have hempty : scanOpenings grid = [] := by
      unfold scanOpenings
      have hw : (grid.headD []).length = 0 := by
        cases grid with
        | nil => rfl
        | cons r t => simp at h0
      rw [h0, hw]
      simp
    rw [hempty]
    simp
  · rw [if_neg h0]
    by_cases h2 : (scanOpenings grid).length < 2
    · rw [if_pos h2, if_neg (by omega)]
    · rw [if_neg h2, if_pos (by omega)]

/-- C2 (amended): `findOpenings` succeeds exactly when the scan finds at
least two candidate entries, and then start is the first and goal the last
entry of the scan order — which interleaves top and bottom per column, then
left and right per row (`scanOpenings`), not the spec's
top-row/bottom-row/left-column/right-column order. -/
theorem c2_scan_order_amended (grid : Grid) :
    findOpenings grid =
      if 2 ≤ (scanOpenings grid).length
      then some ((scanOpenings grid).headD (0, 0), (scanOpenings grid).getLastD (0, 0))
      else none :=
  findOpenings_eq_scan_form grid

/-- C2 counterexample: on the 3×4 grid with free border cells exactly at
`(2,0)` (top row) and `(1,2)` (bottom row), `findOpenings` returns start
`(1,2)` and goal `(2,0)`, while the spec's scan order (all of the top row
before any of the bottom row) lists `(2,0)` first and `(1,2)` last, so the
claimed start/goal are exactly swapped. -/
theorem c2_scan_order_counterexample :
    findOpenings [[false, false, true, false],
                  [false, false, false, false],
                  [false, true, false, false]]
        = some ((1, 2), (2, 0)) ∧
      (specOpenings [[false, false, true, false],
                     [false, false, false, false],
                     [false, true, false, false]]).headD (0, 0) = (2, 0) ∧
      (specOpenings [[false, false, true, false],
                     [false, false, false, false],
                     [false, true, false, false]]).getLastD (0, 0) = (1, 2) := by
  refine ⟨?_, by decide, by decide⟩
  decide

/-- Number of free-cell hits of the border scan, counted once per border
line: top-row hits, bottom-row hits, left-column hits, right-column hits. -/
def borderScanCount (grid : Grid) : ℕ :=
  let gh := grid.length
  let gw := (grid.headD []).length
  (List.range gw).countP (fun x => cellAt grid x 0)
    + (List.range gw).countP (fun x => cellAt grid x (gh - 1))
    + (List.range gh).countP (fun y => cellAt grid 0 y)
    + (List.range gh).countP (fun y => cellAt grid (gw - 1) y)

/-- The distinct free border cells of the grid (each counted once). -/
def borderFreeCells (grid : Grid) : List (ℕ × ℕ) :=
  let gh := grid.length
  let gw := (grid.headD []).length
  ((List.range gh).flatMap fun y => (List.range gw).map fun x => (x, y)).filter
    fun c => (decide (c.1 = 0 ∨ c.1 = gw - 1 ∨ c.2 = 0 ∨ c.2 = gh - 1)) && cellAt grid c.1 c.2

lemma flatMap_two_if_length {α β : Type} (l : List α) (c1 c2 : α → Bool) (p1 p2 : α → β) :
    (l.flatMap fun x =>
        (if c1 x then [p1 x] else []) ++ (if c2 x then [p2 x] else [])).length
      = l.countP c1 + l.countP c2 := by
  induction l with
  | nil => simp
  | cons a t ih =>
      rw [List.flatMap_cons, List.length_append, ih, List.countP_cons, List.countP_cons]
      by_cases h1 : c1 a <;> by_cases h2 : c2 a <;> simp [h1, h2] <;> omega

lemma scanOpenings_length (grid : Grid) :
    (scanOpenings grid).length = borderScanCount grid := by
  simp only [scanOpenings, borderScanCount]
  rw [List.length_append,
    flatMap_two_if_length (List.range (grid.headD []).length)
      (fun x => cellAt grid x 0) (fun x => cellAt grid x (grid.length - 1))
      (fun x => (((x : ℕ) : ℤ), (0 : ℤ)))
      (fun x => (((x : ℕ) : ℤ), ((grid.length - 1 : ℕ) : ℤ))),
    flatMap_two_if_length (List.range grid.length)
      (fun y => cellAt grid 0 y) (fun y => cellAt grid ((grid.headD []).length - 1) y)
      (fun y => ((0 : ℤ), ((y : ℕ) : ℤ)))
      (fun y => ((((grid.headD []).length - 1 : ℕ) : ℤ), ((y : ℕ) : ℤ)))]
  omega

/-- C3 (amended): `findOpenings` fails (returns `none`, assigning neither
start nor goal) iff the border scan finds fewer than two free-cell hits,
where a free border cell is counted once per border line it lies on: corners
count twice, and in a one-row (or one-column) grid every free cell of that
row (column) counts at least twice.  This differs from the claim's "fewer
than two of the grid's border cells are free". -/
theorem c3_insufficient_openings_amended (grid : Grid) :
    findOpenings grid = none ↔ borderScanCount grid < 2 := by
  rw [findOpenings_eq_scan_form, ← scanOpenings_length]
  by_cases h2 : 2 ≤ (scanOpenings grid).length
  · rw [if_pos h2]
    constructor
    · intro h
      exact absurd h (by simp)
    · omega
  · rw [if_neg h2]
    constructor
    · intro _
      omega
    · intro _
      rfl

/-- C3 counterexample: the 2×2 grid whose only free border cell is the corner
`(0,0)` has fewer than two free border cells, yet `findOpenings` succeeds
(the corner is scanned by both the top row and the left column) and returns
it as both start and goal. -/
theorem c3_insufficient_openings_counterexample :
    (borderFreeCells [[true, false], [false, false]]).length = 1 ∧
      findOpenings [[true, false], [false, false]] = some ((0, 0), (0, 0)) := by
  constructor
  · decide
  · decide

/-! ## BorderSealer: the sealing block of `solveMazeFromFile`
(src/chatwindow.cpp lines 649-671) -/

/-- Write value `v` into row `y`, column `x` of the grid (`grid[y][x] = v`).
Out-of-range writes are no-ops, which is never exercised: the source only
writes at indices produced by its own `0 ≤ x < gw`, `0 ≤ y < gh` loops. -/
def setCell (g : Grid) (y x : ℕ) (v : Bool) : Grid :=
  g.set y ((g.getD y []).set x v)

/-- One iteration of the sealing loop over columns: block the top and bottom
cells of column `x` unless they are start `s` or goal `t`. -/
def sealRow (gh : ℕ) (s t : Point) (g : Grid) (x : ℕ) : Grid :=
  let g := if ((x : ℤ), (0 : ℤ)) ≠ s ∧ ((x : ℤ), (0 : ℤ)) ≠ t
    then setCell g 0 x false else g
  if ((x : ℤ), ((gh - 1 : ℕ) : ℤ)) ≠ s ∧ ((x : ℤ), ((gh - 1 : ℕ) : ℤ)) ≠ t
    then setCell g (gh - 1) x false else g

/-- One iteration of the sealing loop over rows: block the left and right
cells of row `y` unless they are start `s` or goal `t`. -/
def sealCol (gw : ℕ) (s t : Point) (g : Grid) (y : ℕ) : Grid :=
  let g := if ((0 : ℤ), (y : ℤ)) ≠ s ∧ ((0 : ℤ), (y : ℤ)) ≠ t
    then setCell g y 0 false else g
  if (((gw - 1 : ℕ) : ℤ), (y : ℤ)) ≠ s ∧ (((gw - 1 : ℕ) : ℤ), (y : ℤ)) ≠ t
    then setCell g y (gw - 1) false else g

/-- The border-sealing block: for each `x` block top and bottom cells, then
for each `y` block left and right cells, sparing start and goal. -/
def sealBorder (grid : Grid) (s t : Point) : Grid :=
  let gh := grid.length
  let gw := (grid.headD []).length
  (List.range gh).foldl (sealCol gw s t)
    ((List.range gw).foldl (sealRow gh s t) grid)

lemma getD_set {α : Type} (l : List α) (i j : ℕ) (a d : α) :
    (l.set i a).getD j d = if j = i ∧ i < l.length then a else l.getD j d := by
  rw [List.getD_eq_getElem?_getD, List.getD_eq_getElem?_getD]
  by_cases h : j = i
  · subst h
    by_cases hlen : j < l.length
    · rw [List.getElem?_set_self hlen, if_pos ⟨rfl, hlen⟩]
      rfl
    · rw [List.set_eq_of_length_le (by omega), if_neg (by omega)]
  · rw [List.getElem?_set_ne (fun he => h he.symm), if_neg (by tauto)]

lemma rect_row_length {g : Grid} {gw gh : ℕ} (hg : Rect g gw gh) {y : ℕ} (hy : y < gh) :
    (g.getD y []).length = gw := by
  have hlt : y < g.length := by rw [hg.1]; exact hy
  have hrow : g.getD y [] = g[y] := by
    rw [List.getD_eq_getElem?_getD, List.getElem?_eq_getElem hlt]
    rfl
  rw [hrow]
  exact hg.2 _ (List.getElem_mem hlt)

lemma rect_setCell {g : Grid} {gw gh : ℕ} (hg : Rect g gw gh) {y0 : ℕ} (hy0 : y0 < gh)
    (x0 : ℕ) (v : Bool) : Rect (setCell g y0 x0 v) gw gh := by
  refine ⟨by simp [setCell, hg.1], ?_⟩
  intro row hrow
  rcases List.mem_or_eq_of_mem_set hrow with h | h
  · exact hg.2 row h
  · subst h
    rw [List.length_set]
    exact rect_row_length hg hy0

lemma cellAt_setCell {g : Grid} {gw gh : ℕ} (hg : Rect g gw gh)
    {x0 y0 : ℕ} (hx0 : x0 < gw) (hy0 : y0 < gh) (v : Bool)
    {x y : ℕ} (hx : x < gw) (hy : y < gh) :
    cellAt (setCell g y0 x0 v) x y = if x = x0 ∧ y = y0 then v else cellAt g x y := by
  unfold cellAt setCell
  rw [getD_set]
  by_cases hyy : y = y0
  · subst hyy
    rw [if_pos ⟨rfl, by rw [hg.1]; exact hy0⟩, getD_set]
    by_cases hxx : x = x0
    · subst hxx
      rw [if_pos ⟨rfl, by rw [rect_row_length hg hy0]; exact hx0⟩, if_pos ⟨rfl, rfl⟩]
    · rw [if_neg (by tauto), if_neg (by tauto)]
  · rw [if_neg (by tauto), if_neg (by tauto)]

lemma foldl_masked {gw gh : ℕ} (f : Grid → ℕ → Grid) (C : ℕ → ℕ → ℕ → Prop)
    [∀ i x y, Decidable (C i x y)] (m : ℕ)
    (hf : ∀ g i, i < m → Rect g gw gh → Rect (f g i) gw gh ∧
        ∀ x y, x < gw → y < gh →
          cellAt (f g i) x y = if C i x y then false else cellAt g x y)
    (g : Grid) (hg : Rect g gw gh) :
    Rect ((List.range m).foldl f g) gw gh ∧
      ∀ x y, x < gw → y < gh →
        cellAt ((List.range m).foldl f g) x y
          = if ∃ i, i < m ∧ C i x y then false else cellAt g x y := by
  induction m with
  | zero =>
      refine ⟨by simpa using hg, fun x y hx hy => ?_⟩
      rw [if_neg (by rintro ⟨i, hi, _⟩; omega)]
      simp
  | succ m ih =>
      obtain ⟨ihr, ihc⟩ := ih (fun g i hi hgr => hf g i (by omega) hgr)
      obtain ⟨hfr, hfc⟩ := hf _ m (by omega) ihr
      rw [List.range_succ, List.foldl_append, List.foldl_cons, List.foldl_nil]
      refine ⟨hfr, fun x y hx hy => ?_⟩
      rw [hfc x y hx hy, ihc x y hx hy]
      by_cases hm : C m x y
      · rw [if_pos hm, if_pos ⟨m, by omega, hm⟩]
      · rw [if_neg hm]
        by_cases hex : ∃ i, i < m ∧ C i x y
        · obtain ⟨i, him, hic⟩ := hex
          rw [if_pos ⟨i, him, hic⟩, if_pos ⟨i, by omega, hic⟩]
        · have hnot : ¬ ∃ i, i < m + 1 ∧ C i x y := by
            rintro ⟨i, him, hic⟩
            rcases Nat.lt_or_ge i m with h | h
            · exact hex ⟨i, h, hic⟩
            · have heq : i = m := by omega
              subst heq
              exact hm hic
          rw [if_neg hex, if_neg hnot]

/-- Condition under which the column-loop iteration `i` blanks cell `(x,y)`. -/
def rowMask (gh : ℕ) (s t : Point) (i x y : ℕ) : Prop :=
  (x = i ∧ y = 0 ∧ ((i : ℤ), (0 : ℤ)) ≠ s ∧ ((i : ℤ), (0 : ℤ)) ≠ t)
    ∨ (x = i ∧ y = gh - 1
        ∧ ((i : ℤ), ((gh - 1 : ℕ) : ℤ)) ≠ s ∧ ((i : ℤ), ((gh - 1 : ℕ) : ℤ)) ≠ t)

/-- Condition under which the row-loop iteration `j` blanks cell `(x,y)`. -/
def colMask (gw : ℕ) (s t : Point) (j x y : ℕ) : Prop :=
  (x = 0 ∧ y = j ∧ ((0 : ℤ), (j : ℤ)) ≠ s ∧ ((0 : ℤ), (j : ℤ)) ≠ t)
    ∨ (x = gw - 1 ∧ y = j
        ∧ (((gw - 1 : ℕ) : ℤ), (j : ℤ)) ≠ s ∧ (((gw - 1 : ℕ) : ℤ), (j : ℤ)) ≠ t)

instance (gh : ℕ) (s t : Point) (i x y : ℕ) : Decidable (rowMask gh s t i x y) := by
  unfold rowMask
  infer_instance

instance (gw : ℕ) (s t : Point) (j x y : ℕ) : Decidable (colMask gw s t j x y) := by
  unfold colMask
  infer_instance

lemma seal_row_body {gw gh : ℕ} (s t : Point) (hgh : 1 ≤ gh) (g : Grid) (i : ℕ)
    (hi : i < gw) (hg : Rect g gw gh) :
    Rect (sealRow gh s t g i) gw gh ∧
      ∀ x y, x < gw → y < gh →
        cellAt (sealRow gh s t g i) x y
          = if rowMask gh s t i x y then false else cellAt g x y := by
  unfold sealRow
  set c1 : Prop := ((i : ℤ), (0 : ℤ)) ≠ s ∧ ((i : ℤ), (0 : ℤ)) ≠ t with hc1
  set c2 : Prop := ((i : ℤ), ((gh - 1 : ℕ) : ℤ)) ≠ s ∧ ((i : ℤ), ((gh - 1 : ℕ) : ℤ)) ≠ t with hc2
  have hg1 : Rect (if c1 then setCell g 0 i false else g) gw gh := by
    by_cases h1 : c1
    · rw [if_pos h1]
      exact rect_setCell hg (by omega) i false
    · rwa [if_neg h1]
  have hg2 : Rect (if c2 then setCell (if c1 then setCell g 0 i false else g) (gh - 1) i false
      else (if c1 then setCell g 0 i false else g)) gw gh := by
    by_cases h2 : c2
    · rw [if_pos h2]
      exact rect_setCell hg1 (by omega) i false
    · rwa [if_neg h2]
  refine ⟨hg2, fun x y hx hy => ?_⟩
  have step1 : cellAt (if c1 then setCell g 0 i false else g) x y
      = if c1 ∧ x = i ∧ y = 0 then false else cellAt g x y := by
    by_cases h1 : c1
    · rw [if_pos h1, cellAt_setCell hg hi (by omega) false hx hy]
      by_cases hxy : x = i ∧ y = 0
      · rw [if_pos hxy, if_pos ⟨h1, hxy⟩]
      · rw [if_neg hxy, if_neg (by tauto)]
    · rw [if_neg h1, if_neg (by tauto)]
  have hmask : ∀ hcase : ¬ (c2 ∧ x = i ∧ y = gh - 1), ¬ (c1 ∧ x = i ∧ y = 0) →
      ¬ rowMask gh s t i x y := by
    rintro hcase hcase0 (⟨ha, hb, hcs, hct⟩ | ⟨ha, hb, hcs, hct⟩)
    · exact hcase0 ⟨⟨hcs, hct⟩, ha, hb⟩
    · exact hcase ⟨⟨hcs, hct⟩, ha, hb⟩
  by_cases h2 : c2
  · rw [if_pos h2, cellAt_setCell hg1 hi (by omega) false hx hy, step1]
    by_cases hxy : x = i ∧ y = gh - 1
    · rw [if_pos hxy,
        if_pos (show rowMask gh s t i x y from Or.inr ⟨hxy.1, hxy.2, h2⟩)]
    · by_cases hxy0 : c1 ∧ x = i ∧ y = 0
      · rw [if_neg hxy, if_pos hxy0,
          if_pos (show rowMask gh s t i x y from Or.inl ⟨hxy0.2.1, hxy0.2.2, hxy0.1⟩)]
      · rw [if_neg hxy, if_neg hxy0, if_neg (hmask (by tauto) hxy0)]
  · rw [if_neg h2, step1]
    by_cases hxy0 : c1 ∧ x = i ∧ y = 0
    · rw [if_pos hxy0,
        if_pos (show rowMask gh s t i x y from Or.inl ⟨hxy0.2.1, hxy0.2.2, hxy0.1⟩)]
    · rw [if_neg hxy0, if_neg (hmask (by tauto) hxy0)]

lemma seal_col_body {gw gh : ℕ} (s t : Point) (hgw : 1 ≤ gw) (g : Grid) (j : ℕ)
    (hj : j < gh) (hg : Rect g gw gh) :
    Rect (sealCol gw s t g j) gw gh ∧
      ∀ x y, x < gw → y < gh →
        cellAt (sealCol gw s t g j) x y
          = if colMask gw s t j x y then false else cellAt g x y := by
  unfold sealCol
  set c1 : Prop := ((0 : ℤ), (j : ℤ)) ≠ s ∧ ((0 : ℤ), (j : ℤ)) ≠ t with hc1
  set c2 : Prop := (((gw - 1 : ℕ) : ℤ), (j : ℤ)) ≠ s ∧ (((gw - 1 : ℕ) : ℤ), (j : ℤ)) ≠ t with hc2
  have hg1 : Rect (if c1 then setCell g j 0 false else g) gw gh := by
    by_cases h1 : c1
    · rw [if_pos h1]
      exact rect_setCell hg hj 0 false
    · rwa [if_neg h1]
  have hg2 : Rect (if c2 then setCell (if c1 then setCell g j 0 false else g) j (gw - 1) false
      else (if c1 then setCell g j 0 false else g)) gw gh := by
    by_cases h2 : c2
    · rw [if_pos h2]
      exact rect_setCell hg1 hj (gw - 1) false
    · rwa [if_neg h2]
  refine ⟨hg2, fun x y hx hy => ?_⟩
  have step1 : cellAt (if c1 then setCell g j 0 false else g) x y
      = if c1 ∧ x = 0 ∧ y = j then false else cellAt g x y := by
    by_cases h1 : c1
    · rw [if_pos h1, cellAt_setCell hg (by omega) hj false hx hy]
      by_cases hxy : x = 0 ∧ y = j
      · rw [if_pos hxy, if_pos ⟨h1, hxy⟩]
      · rw [if_neg hxy, if_neg (by tauto)]
    · rw [if_neg h1, if_neg (by tauto)]
  have hmask : ¬ (c2 ∧ x = gw - 1 ∧ y = j) → ¬ (c1 ∧ x = 0 ∧ y = j) →
      ¬ colMask gw s t j x y := by
    rintro hcase hcase0 (⟨ha, hb, hcs, hct⟩ | ⟨ha, hb, hcs, hct⟩)
    · exact hcase0 ⟨⟨hcs, hct⟩, ha, hb⟩
    · exact hcase ⟨⟨hcs, hct⟩, ha, hb⟩
  by_cases h2 : c2
  · rw [if_pos h2, cellAt_setCell hg1 (by omega) hj false hx hy, step1]
    by_cases hxy : x = gw - 1 ∧ y = j
    · rw [if_pos hxy,
        if_pos (show colMask gw s t j x y from Or.inr ⟨hxy.1, hxy.2, h2⟩)]
    · by_cases hxy0 : c1 ∧ x = 0 ∧ y = j
      · rw [if_neg hxy, if_pos hxy0,
          if_pos (show colMask gw s t j x y from Or.inl ⟨hxy0.2.1, hxy0.2.2, hxy0.1⟩)]
      · rw [if_neg hxy, if_neg hxy0, if_neg (hmask (by tauto) hxy0)]
  · rw [if_neg h2, step1]
    by_cases hxy0 : c1 ∧ x = 0 ∧ y = j
    · rw [if_pos hxy0,
        if_pos (show colMask gw s t j x y from Or.inl ⟨hxy0.2.1, hxy0.2.2, hxy0.1⟩)]
    · rw [if_neg hxy0, if_neg (hmask (by tauto) hxy0)]

/-- C5: after the border-sealing block runs on a `gw × gh` grid (`gw, gh ≥ 1`)
with chosen start `s` and goal `t`, every border cell other than start and
goal reads `false`, while start, goal and every non-border cell read exactly
their pre-sealing value; the grid also keeps its shape. -/
theorem c5_seal_border (grid : Grid) (gw gh : ℕ) (s t : Point)
    (hg : Rect grid gw gh) (hgw : 1 ≤ gw) (hgh : 1 ≤ gh) :
    Rect (sealBorder grid s t) gw gh ∧
      ∀ x y, x < gw → y < gh →
        cellAt (sealBorder grid s t) x y =
          if (x = 0 ∨ x = gw - 1 ∨ y = 0 ∨ y = gh - 1)
              ∧ ((x : ℤ), (y : ℤ)) ≠ s ∧ ((x : ℤ), (y : ℤ)) ≠ t
          then false else cellAt grid x y := by
  have hgwid : (grid.headD []).length = gw := by
    have h0 : (0 : ℕ) < gh := hgh
    have hrl := rect_row_length hg h0
    cases grid with
    | nil =>
        exfalso
        rw [← hg.1] at h0
        simp at h0
    | cons r rest => simpa using hrl
  have hghei : grid.length = gh := hg.1
  unfold sealBorder
  simp only [hgwid, hghei]
  obtain ⟨h1r, h1c⟩ := foldl_masked (sealRow gh s t) (rowMask gh s t) gw
    (fun g i hi hgr => seal_row_body s t hgh g i hi hgr) grid hg
  obtain ⟨h2r, h2c⟩ := foldl_masked (sealCol gw s t) (colMask gw s t) gh
    (fun g j hj hgr => seal_col_body s t hgw g j hj hgr) _ h1r
  refine ⟨h2r, fun x y hx hy => ?_⟩
  rw [h2c x y hx hy, h1c x y hx hy]
  by_cases hcol : ∃ j, j < gh ∧ colMask gw s t j x y
  · have hb2 : (x = 0 ∨ x = gw - 1 ∨ y = 0 ∨ y = gh - 1)
        ∧ ((x : ℤ), (y : ℤ)) ≠ s ∧ ((x : ℤ), (y : ℤ)) ≠ t := by
      obtain ⟨j, hj, hc⟩ := hcol
      rcases hc with ⟨ha, hb, hcs, hct⟩ | ⟨ha, hb, hcs, hct⟩
      · subst ha; subst hb
        exact ⟨Or.inl rfl, hcs, hct⟩
      · subst ha; subst hb
        exact ⟨Or.inr (Or.inl rfl), hcs, hct⟩
    rw [if_pos hcol, if_pos hb2]
  · rw [if_neg hcol]
    by_cases hrow : ∃ i, i < gw ∧ rowMask gh s t i x y
    · have hb2 : (x = 0 ∨ x = gw - 1 ∨ y = 0 ∨ y = gh - 1)
          ∧ ((x : ℤ), (y : ℤ)) ≠ s ∧ ((x : ℤ), (y : ℤ)) ≠ t := by
        obtain ⟨i, hi, hc⟩ := hrow
        rcases hc with ⟨ha, hb, hcs, hct⟩ | ⟨ha, hb, hcs, hct⟩
        · subst ha; subst hb
          exact ⟨Or.inr (Or.inr (Or.inl rfl)), hcs, hct⟩
        · subst ha; subst hb
          exact ⟨Or.inr (Or.inr (Or.inr rfl)), hcs, hct⟩
      rw [if_pos hrow, if_pos hb2]
    · have hnot : ¬ ((x = 0 ∨ x = gw - 1 ∨ y = 0 ∨ y = gh - 1)
          ∧ ((x : ℤ), (y : ℤ)) ≠ s ∧ ((x : ℤ), (y : ℤ)) ≠ t) := by
        rintro ⟨hb, hcs, hct⟩
        rcases hb with hb | hb | hb | hb
        · exact hcol ⟨y, hy, show colMask gw s t y x y from
            Or.inl ⟨hb, rfl, by rw [hb] at hcs; simpa using hcs,
              by rw [hb] at hct; simpa using hct⟩⟩
        · exact hcol ⟨y, hy, show colMask gw s t y x y from
            Or.inr ⟨hb, rfl, by rw [hb] at hcs; exact hcs,
              by rw [hb] at hct; exact hct⟩⟩
        · exact hrow ⟨x, hx, show rowMask gh s t x x y from
            Or.inl ⟨rfl, hb, by rw [hb] at hcs; simpa using hcs,
              by rw [hb] at hct; simpa using hct⟩⟩
        · exact hrow ⟨x, hx, show rowMask gh s t x x y from
            Or.inr ⟨rfl, hb, by rw [hb] at hcs; exact hcs,
              by rw [hb] at hct; exact hct⟩⟩
      rw [if_neg hrow, if_neg hnot]

/-- Witness for C5: on the all-free 3×3 grid with start `(0,1)` and goal
`(2,1)`, the border cell `(1,0)` is sealed to `false` while the interior cell
`(1,1)` keeps its value `true`. -/
theorem c5_seal_border_witness :
    cellAt (sealBorder [[true, true, true], [true, true, true], [true, true, true]]
        ((0 : ℤ), (1 : ℤ)) ((2 : ℤ), (1 : ℤ))) 1 0 = false ∧
      cellAt (sealBorder [[true, true, true], [true, true, true], [true, true, true]]
        ((0 : ℤ), (1 : ℤ)) ((2 : ℤ), (1 : ℤ))) 1 1 = true := by
  have h := c5_seal_border [[true, true, true], [true, true, true], [true, true, true]]
    3 3 ((0 : ℤ), (1 : ℤ)) ((2 : ℤ), (1 : ℤ))
    (show Rect _ 3 3 from ⟨rfl, by decide⟩)
    (by omega) (by omega)
  constructor
  · rw [h.2 1 0 (by omega) (by omega), if_pos ⟨by omega, by decide, by decide⟩]
  · rw [h.2 1 1 (by omega) (by omega),
      if_neg (by rintro ⟨hb, _, _⟩; rcases hb with h | h | h | h <;> omega)]
    rfl



/-! ## GridRasterizer: `isWhite` and `buildGrid`
(src/chatwindow.cpp lines 81-121)

Pixels are RGB triples of naturals (0..255 in practice, though nothing below
needs the upper bound).  The source computes
`int(0.2126*qRed + 0.7152*qGreen + 0.0722*qBlue)`; with exact arithmetic that
truncation is `(2126*r + 7152*g + 722*b) / 10000` in ℕ.  The `double`
computation can differ from the exact value only when the weighted sum is
within a few ulps of an integer; we embed the exact value.  Likewise the
free-cell test `ratio > 0.7` is embedded as an exact comparison in ℚ. -/

/-- An immutable raster image: dimensions plus per-pixel RGB lookup. -/
structure Image where
  width : ℕ
  height : ℕ
  rgb : ℕ → ℕ → ℕ × ℕ × ℕ

/-- Integer luminance of an RGB triple, the truncation of
`0.2126R + 0.7152G + 0.0722B`. -/
def lum (c : ℕ × ℕ × ℕ) : ℕ := (2126 * c.1 + 7152 * c.2.1 + 722 * c.2.2) / 10000

/-- `isWhite`: out-of-image coordinates are not white; otherwise the pixel is
white iff its integer luminance exceeds 230. -/
def isWhite (img : Image) (x y : ℤ) : Bool :=
  if x < 0 ∨ y < 0 ∨ (img.width : ℤ) ≤ x ∨ (img.height : ℤ) ≤ y then false
  else decide (lum (img.rgb x.toNat y.toNat) > 230)

/-- The per-cell sampling loop of `buildGrid`: scan every pixel of the cell
`[x0, x1) × [y0, y1)` and return `(total, whiteCount)`. -/
def cellCount (img : Image) (cellSize gx gy : ℕ) : ℕ × ℕ :=
  let x0 := gx * cellSize
  let y0 := gy * cellSize
  let x1 := min (x0 + cellSize) img.width
  let y1 := min (y0 + cellSize) img.height
  (List.range (y1 - y0)).foldl
    (fun acc dy =>
      (List.range (x1 - x0)).foldl
        (fun acc dx =>
          (acc.1 + 1,
            if isWhite img ((x0 + dx : ℕ) : ℤ) ((y0 + dy : ℕ) : ℤ) then acc.2 + 1 else acc.2))
        acc)
    (0, 0)

/-- `buildGrid`: a `ceil(height/cellSize) × ceil(width/cellSize)` grid where a
cell is free iff more than 70% of its sampled pixels are white (the ratio is
`0.0` when a cell has no pixels). -/
def buildGrid (img : Image) (cellSize : ℕ) : Grid :=
  let gw := (img.width + cellSize - 1) / cellSize
  let gh := (img.height + cellSize - 1) / cellSize
  (List.range gh).map fun gy =>
    (List.range gw).map fun gx =>
      let c := cellCount img cellSize gx gy
      let r : ℚ := if c.1 > 0 then (c.2 : ℚ) / (c.1 : ℚ) else 0
      decide (r > 7 / 10)

/-- The pixels of cell `(gx, gy)`, spec-side: the actual (possibly clipped)
pixel rectangle of the cell. -/
def cellPixelList (img : Image) (cellSize gx gy : ℕ) : List (ℕ × ℕ) :=
  (List.range (min (gy * cellSize + cellSize) img.height - gy * cellSize)).flatMap fun dy =>
    (List.range (min (gx * cellSize + cellSize) img.width - gx * cellSize)).map fun dx =>
      (gx * cellSize + dx, gy * cellSize + dy)

/-- Number of pixels of the cell whose luminance exceeds 230. -/
def cellWhitePixels (img : Image) (cellSize gx gy : ℕ) : ℕ :=
  (cellPixelList img cellSize gx gy).countP fun p => decide (lum (img.rgb p.1 p.2) > 230)

lemma count_fold_inner (f : ℕ → Bool) (n : ℕ) (acc : ℕ × ℕ) :
    (List.range n).foldl (fun a i => (a.1 + 1, if f i then a.2 + 1 else a.2)) acc
      = (acc.1 + n, acc.2 + (List.range n).countP f) := by
  induction n generalizing acc with
  | zero => simp
  | succ n ih =>
      rw [List.range_succ, List.foldl_append, List.foldl_cons, List.foldl_nil, ih,
        List.countP_append]
      by_cases h : f n <;> simp [h, List.countP_cons] <;> omega

lemma countP_congr_mem {α : Type} (l : List α) (p q : α → Bool)
    (h : ∀ x ∈ l, p x = q x) : l.countP p = l.countP q := by
  induction l with
  | nil => rfl
  | cons a t ih =>
      rw [List.countP_cons, List.countP_cons, h a (by simp),
        ih (fun x hx => h x (by simp [hx]))]

lemma cellCount_eq (img : Image) (cellSize gx gy : ℕ) :
    cellCount img cellSize gx gy
      = ((min (gy * cellSize + cellSize) img.height - gy * cellSize)
          * (min (gx * cellSize + cellSize) img.width - gx * cellSize),
        cellWhitePixels img cellSize gx gy) := by
  unfold cellCount cellWhitePixels cellPixelList
  set x0 := gx * cellSize with hx0
  set y0 := gy * cellSize with hy0
  set cw := min (x0 + cellSize) img.width - x0 with hcw
  set ch := min (y0 + cellSize) img.height - y0 with hch
  have hrow_eq : ∀ m : ℕ, m < ch →
      (List.range cw).countP
          (fun dx => isWhite img ((x0 + dx : ℕ) : ℤ) ((y0 + m : ℕ) : ℤ))
        = ((List.range cw).map fun dx => (x0 + dx, y0 + m)).countP
            (fun p => decide (lum (img.rgb p.1 p.2) > 230)) := by
    intro m hm
    rw [List.countP_map]
    refine (countP_congr_mem _ _ _ ?_).symm
    intro dx hdx
    rw [List.mem_range] at hdx
    have hxw : x0 + dx < img.width := by omega
    have hyh : y0 + m < img.height := by omega
    show (fun p : ℕ × ℕ => decide (lum (img.rgb p.1 p.2) > 230)) (x0 + dx, y0 + m)
        = isWhite img ((x0 + dx : ℕ) : ℤ) ((y0 + m : ℕ) : ℤ)
    unfold isWhite
    rw [if_neg ?_]
    · have e1 : ((x0 + dx : ℕ) : ℤ).toNat = x0 + dx := by omega
      have e2 : ((y0 + m : ℕ) : ℤ).toNat = y0 + m := by omega
      rw [e1, e2]
    · push_neg
      refine ⟨by positivity, by positivity, by exact_mod_cast hxw, by exact_mod_cast hyh⟩
  have main : ∀ (m : ℕ), m ≤ ch → ∀ acc : ℕ × ℕ,
      (List.range m).foldl
        (fun acc dy =>
          (List.range cw).foldl
            (fun acc dx =>
              (acc.1 + 1,
                if isWhite img ((x0 + dx : ℕ) : ℤ) ((y0 + dy : ℕ) : ℤ)
                then acc.2 + 1 else acc.2))
            acc)
        acc
      = (acc.1 + m * cw,
          acc.2 + ((List.range m).flatMap fun dy =>
            (List.range cw).map fun dx => (x0 + dx, y0 + dy)).countP
              (fun p => decide (lum (img.rgb p.1 p.2) > 230))) := by
    intro m
    induction m with
    | zero =>
        intro _ acc
        simp
    | succ m ih =>
        intro hm acc
        have h2 : ([m].flatMap fun dy => (List.range cw).map fun dx => (x0 + dx, y0 + dy))
            = (List.range cw).map fun dx => (x0 + dx, y0 + m) := by
          simp
        have h1 : (m + 1) * cw = m * cw + cw := by ring
        rw [List.range_succ, List.foldl_append, List.foldl_cons, List.foldl_nil,
          ih (by omega) acc, count_fold_inner, List.flatMap_append, List.countP_append, h2,
          hrow_eq m (by omega), h1]
        simp [Nat.add_assoc]
  rw [main ch le_rfl (0, 0)]
  simp

/-- C6: for every image and cell size ≥ 1, `buildGrid` has
`ceil(height/cellSize)` rows of `ceil(width/cellSize)` cells each (the
dimension formulas `(d + cellSize - 1) / cellSize` are exactly the ceilings),
and a cell is free iff the fraction of its constituent pixels with integer
luminance (the truncation of `0.2126R + 0.7152G + 0.0722B`) exceeding 230 is
greater than `7/10`, where the fraction's denominator is the cell's actual
pixel count — `(min(x0+cellSize, width) - x0) * (min(y0+cellSize, height) - y0)`
— so clipped edge cells are judged by ratio, not raw count. -/
theorem c6_build_grid (img : Image) (cellSize : ℕ) (hcs : 1 ≤ cellSize) :
    Rect (buildGrid img cellSize)
        ((img.width + cellSize - 1) / cellSize) ((img.height + cellSize - 1) / cellSize)
      ∧ (img.width ≤ ((img.width + cellSize - 1) / cellSize) * cellSize
          ∧ ((img.width + cellSize - 1) / cellSize) * cellSize < img.width + cellSize)
      ∧ (img.height ≤ ((img.height + cellSize - 1) / cellSize) * cellSize
          ∧ ((img.height + cellSize - 1) / cellSize) * cellSize < img.height + cellSize)
      ∧ ∀ gx gy, gx < (img.width + cellSize - 1) / cellSize →
          gy < (img.height + cellSize - 1) / cellSize →
          (cellAt (buildGrid img cellSize) gx gy = true ↔
            (cellWhitePixels img cellSize gx gy : ℚ)
                / (((min (gy * cellSize + cellSize) img.height - gy * cellSize)
                    * (min (gx * cellSize + cellSize) img.width - gx * cellSize) : ℕ) : ℚ)
              > 7 / 10) := by
  set gw := (img.width + cellSize - 1) / cellSize with hgw
  set gh := (img.height + cellSize - 1) / cellSize with hgh
  have hceil : ∀ d : ℕ, d ≤ ((d + cellSize - 1) / cellSize) * cellSize
      ∧ ((d + cellSize - 1) / cellSize) * cellSize < d + cellSize := by
    intro d
    have hdm := Nat.div_add_mod (d + cellSize - 1) cellSize
    have hmod : (d + cellSize - 1) % cellSize < cellSize :=
      Nat.mod_lt _ (by omega)
    have hcomm : ((d + cellSize - 1) / cellSize) * cellSize
        = cellSize * ((d + cellSize - 1) / cellSize) := by ring
    omega
  have hcell : ∀ gx gy, gx < gw → gy < gh →
      cellAt (buildGrid img cellSize) gx gy
        = decide ((if (cellCount img cellSize gx gy).1 > 0
            then ((cellCount img cellSize gx gy).2 : ℚ) / ((cellCount img cellSize gx gy).1 : ℚ)
            else 0) > 7 / 10) := by
    intro gx gy hgx hgy
    unfold buildGrid cellAt
    rw [List.getD_eq_getElem?_getD, List.getD_eq_getElem?_getD,
      List.getElem?_map, List.getElem?_range hgy]
    simp only [Option.map_some', Option.getD_some]
    rw [List.getElem?_map, List.getElem?_range hgx]
    simp only [Option.map_some', Option.getD_some]
  refine ⟨⟨by simp [buildGrid, ← hgh], ?_⟩, hceil img.width, hceil img.height, ?_⟩
  · intro row hrow
    simp only [buildGrid, ← hgw, ← hgh, List.mem_map] at hrow
    obtain ⟨gy, _, hrow⟩ := hrow
    rw [← hrow]
    simp
  · intro gx gy hgx hgy
    rw [hcell gx gy hgx hgy, cellCount_eq]
    have hx0w : gx * cellSize < img.width := by
      have h1 : gw * cellSize ≤ img.width + cellSize - 1 := by
        rw [hgw]
        exact Nat.div_mul_le_self _ _
      have h2 : (gx + 1) * cellSize ≤ gw * cellSize :=
        Nat.mul_le_mul_right cellSize (by omega)
      have h3 : (gx + 1) * cellSize = gx * cellSize + cellSize := by ring
      omega
    have hy0h : gy * cellSize < img.height := by
      have h1 : gh * cellSize ≤ img.height + cellSize - 1 := by
        rw [hgh]
        exact Nat.div_mul_le_self _ _
      have h2 : (gy + 1) * cellSize ≤ gh * cellSize :=
        Nat.mul_le_mul_right cellSize (by omega)
      have h3 : (gy + 1) * cellSize = gy * cellSize + cellSize := by ring
      omega
    have htot : 0 < (min (gy * cellSize + cellSize) img.height - gy * cellSize)
        * (min (gx * cellSize + cellSize) img.width - gx * cellSize) := by
      have hch : 0 < min (gy * cellSize + cellSize) img.height - gy * cellSize := by omega
      have hcw : 0 < min (gx * cellSize + cellSize) img.width - gx * cellSize := by omega
      positivity
    simp only [htot, if_pos]
    constructor
    · intro h
      exact of_decide_eq_true h
    · intro h
      exact decide_eq_true h

/-- Witness for C6 on a 4×4 image, cell size 3: the grid is 2×2 (ceiling of
4/3), the top-left cell (9 pixels, all white) is free, and the bottom-right
edge cell (a single dark pixel) is blocked — matching the ratio over the
actual pixel count. -/
theorem c6_build_grid_witness :
    Rect (buildGrid ⟨4, 4, fun x y => if x < 3 ∧ y < 3 then (255, 255, 255) else (0, 0, 0)⟩ 3)
        2 2
      ∧ cellAt (buildGrid ⟨4, 4, fun x y => if x < 3 ∧ y < 3 then (255, 255, 255) else (0, 0, 0)⟩ 3)
          0 0 = true
      ∧ cellAt (buildGrid ⟨4, 4, fun x y => if x < 3 ∧ y < 3 then (255, 255, 255) else (0, 0, 0)⟩ 3)
          1 1 = false := by
  have h := c6_build_grid
    ⟨4, 4, fun x y => if x < 3 ∧ y < 3 then (255, 255, 255) else (0, 0, 0)⟩ 3 (by decide)
  refine ⟨h.1, ?_, ?_⟩
  · rw [h.2.2.2 0 0 (by decide) (by decide)]
    have hnum : cellWhitePixels
        ⟨4, 4, fun x y => if x < 3 ∧ y < 3 then (255, 255, 255) else (0, 0, 0)⟩ 3 0 0 = 9 := by
      decide
    rw [hnum]
    norm_num [Nat.min_def]
  · cases hb : cellAt (buildGrid
        ⟨4, 4, fun x y => if x < 3 ∧ y < 3 then (255, 255, 255) else (0, 0, 0)⟩ 3) 1 1
    · rfl
    · exfalso
      have hc := (h.2.2.2 1 1 (by decide) (by decide)).mp hb
      have hnum : cellWhitePixels
          ⟨4, 4, fun x y => if x < 3 ∧ y < 3 then (255, 255, 255) else (0, 0, 0)⟩ 3 1 1 = 0 := by
        decide
      rw [hnum] at hc
      norm_num [Nat.min_def] at hc

/-! ## CoordinateMapper: the normalization block of `solveMazeFromFile`
(src/chatwindow.cpp lines 681-695)

The source sets `w = mazeOnly.width() - 1`, `h = mazeOnly.height() - 1` as
doubles, then for each path cell computes the cell-center pixel coordinate,
clamps it with `qBound(0.0, c, w - 1.0)` and divides by `w - 1.0`.  All the
quantities are exactly representable small rationals except the final
division, whose IEEE rounding (relative error ~1e-16) cannot affect the
order-of-magnitude facts below; we embed the arithmetic exactly in ℚ. -/

/-- Qt's `qBound(lo, v, hi) = qMax(lo, qMin(hi, v))`. -/
def qBound (lo v hi : ℚ) : ℚ := max lo (min v hi)

/-- The grid-cell → normalized-coordinate mapping of `solveMazeFromFile`:
`w`, `h` are the cropped maze image's width and height in pixels. -/
def normalizedPath (gridPath : List Point) (cellSize w h : ℕ) : List (ℚ × ℚ) :=
  let wq : ℚ := (w : ℚ) - 1
  let hq : ℚ := (h : ℚ) - 1
  gridPath.map fun c =>
    let cx : ℚ := ((c.1 : ℚ) + 1/2) * (cellSize : ℚ)
    let cy : ℚ := ((c.2 : ℚ) + 1/2) * (cellSize : ℚ)
    let cx2 := qBound 0 cx (wq - 1)
    let cy2 := qBound 0 cy (hq - 1)
    (cx2 / (wq - 1), cy2 / (hq - 1))

/-- The mapping the claim describes, modelled from the spec's words: clamp
the cell-center coordinate into `[0, dimension - 1)` and divide by
`dimension - 1`, where dimension is the cropped image's width or height. -/
def specNormalizedPath (gridPath : List Point) (cellSize w h : ℕ) : List (ℚ × ℚ) :=
  gridPath.map fun c =>
    (qBound 0 (((c.1 : ℚ) + 1/2) * (cellSize : ℚ)) ((w : ℚ) - 1) / ((w : ℚ) - 1),
      qBound 0 (((c.2 : ℚ) + 1/2) * (cellSize : ℚ)) ((h : ℚ) - 1) / ((h : ℚ) - 1))

lemma qBound_nonneg (v hi : ℚ) : 0 ≤ qBound 0 v hi := le_max_left 0 _

lemma qBound_le (v hi : ℚ) (h : 0 ≤ hi) : qBound 0 v hi ≤ hi :=
  max_le h (min_le_right v hi)

/-- C7 (amended): the mapper clamps each center coordinate into
`[0, dimension - 2]` and divides by `dimension - 2` (the source variable `w`
is already `width - 1`, so `w - 1.0` is `width - 2`), not by
`dimension - 1`; provided both cropped dimensions are at least 3 the
resulting components all lie in `[0, 1]`. -/
theorem c7_normalize_amended (gridPath : List Point) (cellSize w h : ℕ)
    (hw : 3 ≤ w) (hh : 3 ≤ h) :
    normalizedPath gridPath cellSize w h
      = gridPath.map (fun c =>
          (qBound 0 (((c.1 : ℚ) + 1/2) * (cellSize : ℚ)) ((w : ℚ) - 2) / ((w : ℚ) - 2),
            qBound 0 (((c.2 : ℚ) + 1/2) * (cellSize : ℚ)) ((h : ℚ) - 2) / ((h : ℚ) - 2)))
      ∧ ∀ q ∈ normalizedPath gridPath cellSize w h,
          0 ≤ q.1 ∧ q.1 ≤ 1 ∧ 0 ≤ q.2 ∧ q.2 ≤ 1 := by
  have hw2 : (w : ℚ) - 1 - 1 = (w : ℚ) - 2 := by ring
  have hh2 : (h : ℚ) - 1 - 1 = (h : ℚ) - 2 := by ring
  have hwpos : (0 : ℚ) < (w : ℚ) - 2 := by
    have : (3 : ℚ) ≤ (w : ℚ) := by exact_mod_cast hw
    linarith
  have hhpos : (0 : ℚ) < (h : ℚ) - 2 := by
    have : (3 : ℚ) ≤ (h : ℚ) := by exact_mod_cast hh
    linarith
  have heq : normalizedPath gridPath cellSize w h
      = gridPath.map (fun c =>
          (qBound 0 (((c.1 : ℚ) + 1/2) * (cellSize : ℚ)) ((w : ℚ) - 2) / ((w : ℚ) - 2),
            qBound 0 (((c.2 : ℚ) + 1/2) * (cellSize : ℚ)) ((h : ℚ) - 2) / ((h : ℚ) - 2))) := by
    simp only [normalizedPath]
    rw [hw2, hh2]
  refine ⟨heq, fun q hq => ?_⟩
  rw [heq] at hq
  rw [List.mem_map] at hq
  obtain ⟨c, _, hc⟩ := hq
  rw [← hc]
  refine ⟨?_, ?_, ?_, ?_⟩
  · exact div_nonneg (qBound_nonneg _ _) (le_of_lt hwpos)
  · rw [div_le_one hwpos]
    exact qBound_le _ _ (le_of_lt hwpos)
  · exact div_nonneg (qBound_nonneg _ _) (le_of_lt hhpos)
  · rw [div_le_one hhpos]
    exact qBound_le _ _ (le_of_lt hhpos)

/-- Witness for C7 (amended) on the one-cell path `[(0,0)]` with cell size 3
in an 11×11 crop. -/
theorem c7_normalize_amended_witness :
    normalizedPath [((0 : ℤ), (0 : ℤ))] 3 11 11
        = [((0 : ℤ), (0 : ℤ))].map (fun c =>
            (qBound 0 (((c.1 : ℚ) + 1/2) * ((3 : ℕ) : ℚ)) (((11 : ℕ) : ℚ) - 2)
                / (((11 : ℕ) : ℚ) - 2),
              qBound 0 (((c.2 : ℚ) + 1/2) * ((3 : ℕ) : ℚ)) (((11 : ℕ) : ℚ) - 2)
                / (((11 : ℕ) : ℚ) - 2)))
      ∧ ∀ q ∈ normalizedPath [((0 : ℤ), (0 : ℤ))] 3 11 11,
          0 ≤ q.1 ∧ q.1 ≤ 1 ∧ 0 ≤ q.2 ∧ q.2 ≤ 1 :=
  c7_normalize_amended [((0 : ℤ), (0 : ℤ))] 3 11 11 (by omega) (by omega)

/-- C7 counterexample: for cell `(1,1)`, cell size 3, an 11×11 crop, the code
yields `4.5 / 9 = 1/2` on both axes (divisor `dimension - 2 = 9`), while the
claim's formula — clamp into `[0, dimension-1)` and divide by
`dimension - 1 = 10` — yields `4.5 / 10 = 9/20`; the two disagree. -/
theorem c7_normalize_counterexample :
    normalizedPath [((1 : ℤ), (1 : ℤ))] 3 11 11 = [((1 : ℚ)/2, (1 : ℚ)/2)]
      ∧ specNormalizedPath [((1 : ℤ), (1 : ℤ))] 3 11 11 = [((9 : ℚ)/20, (9 : ℚ)/20)]
      ∧ ((1 : ℚ)/2 : ℚ) ≠ (9 : ℚ)/20 := by
  refine ⟨?_, ?_, by norm_num⟩
  · simp only [normalizedPath, qBound, List.map_cons, List.map_nil]
    norm_num [min_def, max_def]
  · simp only [specNormalizedPath, qBound, List.map_cons, List.map_nil]
    norm_num [min_def, max_def]

/-! ## PathSolver: `bfsPath` (src/chatwindow.cpp lines 151-197)

The distance and parent arrays (`QVector<int>`, `QVector<QPoint>` of size
`gw*gh`) are embedded as functions `ℕ → ℤ` / `ℕ → Point` together with the
size `N`; every array access the source performs is a checked `rd`/`wr` whose
`none` branch is the out-of-range outcome (undefined behavior in C++).
Neighbor accesses are guarded by the source's own `0 ≤ nx < gw`,
`0 ≤ ny < gh` test; the reads of `dist[idx(start)]`, `dist[idx(u)]`,
`dist[idx(goal)]` and `parent[idx(v)]` are unguarded in the source and can
hit the `none` branch when start or goal lie outside the grid. -/

/-- Neighbor offsets in the source's order: East, West, South, North. -/
def dirs : List Point := [(1, 0), (-1, 0), (0, 1), (0, -1)]

/-- Checked read of a flat array of size `N` at integer index `i`. -/
def rd {α : Type} (N : ℕ) (f : ℕ → α) (i : ℤ) : Option α :=
  if 0 ≤ i ∧ i < (N : ℤ) then some (f i.toNat) else none

/-- Checked write of a flat array of size `N` at integer index `i`. -/
def wr {α : Type} (N : ℕ) (f : ℕ → α) (i : ℤ) (v : α) : Option (ℕ → α) :=
  if 0 ≤ i ∧ i < (N : ℤ) then some (fun j => if j = i.toNat then v else f j) else none

/-- `idx(x, y) = y*gw + x` from the source. -/
def pidx (gw : ℕ) (p : Point) : ℤ := p.2 * (gw : ℤ) + p.1

/-- The same index as a natural number, for in-bounds points. -/
def npidx (gw : ℕ) (p : Point) : ℕ := p.2.toNat * gw + p.1.toNat

/-- The grid read `grid[ny][nx]`, performed only after the bounds guard. -/
def gridAt (g : Grid) (x y : ℤ) : Bool := cellAt g x.toNat y.toNat

/-- BFS working state: distance array, parent array, FIFO queue. -/
structure BfsState where
  dist : ℕ → ℤ
  par : ℕ → Point
  queue : List Point

/-- One neighbor relaxation (the body of the `for k` loop): bounds check,
wall check, visited check, then set distance and parent and enqueue. -/
def bfsRelax (N gw gh : ℕ) (g : Grid) (u : Point) (st : BfsState) (e : Point) :
    Option BfsState :=
  let nx := u.1 + e.1
  let ny := u.2 + e.2
  if nx < 0 ∨ ny < 0 ∨ (gw : ℤ) ≤ nx ∨ (gh : ℤ) ≤ ny then some st
  else if gridAt g nx ny = false then some st
  else
    match rd N st.dist (pidx gw (nx, ny)) with
    | none => none
    | some dcur =>
      if dcur ≠ -1 then some st
      else
        match rd N st.dist (pidx gw u) with
        | none => none
        | some du =>
          match wr N st.dist (pidx gw (nx, ny)) (du + 1) with
          | none => none
          | some dist2 =>
            match wr N st.par (pidx gw (nx, ny)) u with
            | none => none
            | some par2 => some ⟨dist2, par2, st.queue ++ [(nx, ny)]⟩

/-- Process all four neighbors of `u` in source order. -/
def bfsVisit (N gw gh : ℕ) (g : Grid) (u : Point) (st : BfsState) : Option BfsState :=
  List.foldlM (bfsRelax N gw gh g u) st dirs

/-- The BFS `while (!q.empty())` loop: pop the front, break on goal,
otherwise relax the four neighbors.  Fuel bounds the number of iterations;
running out of fuel is an artifact branch shown unreachable below. -/
def bfsLoop (N gw gh : ℕ) (g : Grid) (goal : Point) :
    ℕ → BfsState → Option ((ℕ → ℤ) × (ℕ → Point))
  | 0, _ => none
  | fuel + 1, st =>
    match st.queue with
    | [] => some (st.dist, st.par)
    | u :: rest =>
      if u = goal then some (st.dist, st.par)
      else
        match bfsVisit N gw gh g u ⟨st.dist, st.par, rest⟩ with
        | none => none
        | some st2 => bfsLoop N gw gh g goal fuel st2

/-- Path reconstruction: walk parent pointers from `goal`, stopping at
`(-1,-1)` or at `start` (which is appended first). -/
def rebuild (N gw : ℕ) (par : ℕ → Point) (start : Point) :
    ℕ → Point → List Point → Option (List Point)
  | 0, _, _ => none
  | fuel + 1, v, acc =>
    if v = ((-1 : ℤ), (-1 : ℤ)) then some acc
    else
      let acc2 := acc ++ [v]
      if v = start then some acc2
      else
        match rd N par (pidx gw v) with
        | none => none
        | some p => rebuild N gw par start fuel p acc2

/-- `bfsPath`: empty result on an empty grid; otherwise seed the distance
array at `start`, run the loop, and if the goal was reached reconstruct the
path and reverse it; `some []` is the no-path outcome, `none` the
out-of-range outcome. -/
def bfsPath (g : Grid) (start goal : Point) : Option (List Point) :=
  let gh := g.length
  if gh = 0 then some []
  else
    let gw := (g.headD []).length
    let N := gw * gh
    match wr N (fun _ => (-1 : ℤ)) (pidx gw start) 0 with
    | none => none
    | some dist0 =>
      match bfsLoop N gw gh g goal (N + 1) ⟨dist0, fun _ => ((-1 : ℤ), (-1 : ℤ)), [start]⟩ with
      | none => none
      | some (dist, par) =>
        match rd N dist (pidx gw goal) with
        | none => none
        | some dg =>
          if dg = -1 then some []
          else
            match rebuild N gw par start (N + 1) goal [] with
            | none => none
            | some p => some p.reverse

/-- A point is traversable in the grid: both coordinates in range and the
cell free.  On the rectangular grids the program builds this is exactly the
condition the BFS neighbor guard tests. -/
def freeB (g : Grid) (v : Point) : Bool :=
  decide (0 ≤ v.1) && decide (0 ≤ v.2) && decide (v.2.toNat < g.length)
    && decide (v.1.toNat < (g.getD v.2.toNat []).length)
    && cellAt g v.1.toNat v.2.toNat

/-- `reachLe g s n v`: `v` is reachable from `s` in at most `n` four-adjacent
steps, each step landing on a free in-range cell (the start cell itself is
exempt, exactly as in the source's BFS, which never tests `start`). -/
def reachLe (g : Grid) (s : Point) : ℕ → Point → Bool
  | 0, v => decide (v = s)
  | n + 1, v =>
      reachLe g s n v || (freeB g v && dirs.any fun e => reachLe g s n (v - e))

/-- `0 ≤ x < gw ∧ 0 ≤ y < gh`: the point denotes a grid cell. -/
def InB (gw gh : ℕ) (p : Point) : Prop :=
  0 ≤ p.1 ∧ p.1 < (gw : ℤ) ∧ 0 ≤ p.2 ∧ p.2 < (gh : ℤ)

instance (gw gh : ℕ) (p : Point) : Decidable (InB gw gh p) := by
  unfold InB
  infer_instance

lemma pidx_inB {gw gh : ℕ} {p : Point} (hp : InB gw gh p) :
    0 ≤ pidx gw p ∧ pidx gw p < (gw * gh : ℕ) ∧ (pidx gw p).toNat = npidx gw p := by
  obtain ⟨hx0, hxw, hy0, hyh⟩ := hp
  unfold pidx npidx
  have h1 : (0 : ℤ) ≤ p.2 * (gw : ℤ) + p.1 := by positivity
  have h2 : p.2 * (gw : ℤ) + p.1 < (gw * gh : ℕ) := by
    push_cast
    have hle : p.2 * (gw : ℤ) ≤ ((gh : ℤ) - 1) * gw := by
      apply mul_le_mul_of_nonneg_right _ (by positivity)
      omega
    nlinarith
  refine ⟨h1, h2, ?_⟩
  have hc : p.2 * (gw : ℤ) + p.1 = ((p.2.toNat * gw + p.1.toNat : ℕ) : ℤ) := by
    push_cast
    rw [Int.toNat_of_nonneg hy0, Int.toNat_of_nonneg hx0]
  rw [hc]
  omega

lemma npidx_inj {gw gh : ℕ} {p q : Point} (hp : InB gw gh p) (hq : InB gw gh q)
    (h : npidx gw p = npidx gw q) : p = q := by
  obtain ⟨hpx0, hpxw, hpy0, hpyh⟩ := hp
  obtain ⟨hqx0, hqxw, hqy0, hqyh⟩ := hq
  unfold npidx at h
  have hpx : p.1.toNat < gw := by omega
  have hqx : q.1.toNat < gw := by omega
  have hyy : p.2.toNat = q.2.toNat := by
    rcases Nat.lt_trichotomy p.2.toNat q.2.toNat with hlt | heq | hgt
    · exfalso
      have : p.2.toNat * gw + gw ≤ q.2.toNat * gw := by
        calc p.2.toNat * gw + gw = (p.2.toNat + 1) * gw := by ring
        _ ≤ q.2.toNat * gw := Nat.mul_le_mul_right gw (by omega)
      omega
    · exact heq
    · exfalso
      have : q.2.toNat * gw + gw ≤ p.2.toNat * gw := by
        calc q.2.toNat * gw + gw = (q.2.toNat + 1) * gw := by ring
        _ ≤ p.2.toNat * gw := Nat.mul_le_mul_right gw (by omega)
      omega
  rw [hyy] at h
  have hxx : p.1.toNat = q.1.toNat := by omega
  refine Prod.ext ?_ ?_
  · omega
  · omega

lemma rd_inB {α : Type} {gw gh : ℕ} (f : ℕ → α) {p : Point} (hp : InB gw gh p) :
    rd (gw * gh) f (pidx gw p) = some (f (npidx gw p)) := by
  obtain ⟨h0, hlt, htn⟩ := pidx_inB hp
  unfold rd
  rw [if_pos ⟨h0, hlt⟩, htn]

lemma wr_inB {α : Type} {gw gh : ℕ} (f : ℕ → α) {p : Point} (hp : InB gw gh p) (v : α) :
    wr (gw * gh) f (pidx gw p) v
      = some (fun j => if j = npidx gw p then v else f j) := by
  obtain ⟨h0, hlt, htn⟩ := pidx_inB hp
  unfold wr
  rw [if_pos ⟨h0, hlt⟩, htn]

lemma freeB_inB {g : Grid} {gw gh : ℕ} (hrect : Rect g gw gh) {v : Point}
    (hf : freeB g v = true) : InB gw gh v := by
  unfold freeB at hf
  simp only [Bool.and_eq_true, decide_eq_true_eq] at hf
  obtain ⟨⟨⟨⟨hx0, hy0⟩, hyh⟩, hxw⟩, _⟩ := hf
  rw [hrect.1] at hyh
  rw [rect_row_length hrect hyh] at hxw
  exact ⟨hx0, by omega, hy0, by omega⟩

lemma freeB_cell {g : Grid} {gw gh : ℕ} (hrect : Rect g gw gh) {v : Point}
    (hv : InB gw gh v) :
    freeB g v = cellAt g v.1.toNat v.2.toNat := by
  obtain ⟨hx0, hxw, hy0, hyh⟩ := hv
  unfold freeB
  have h1 : decide (0 ≤ v.1) = true := by simp [hx0]
  have h2 : decide (0 ≤ v.2) = true := by simp [hy0]
  have h3 : decide (v.2.toNat < g.length) = true := by
    rw [hrect.1]
    simp only [decide_eq_true_eq]
    omega
  have h4 : decide (v.1.toNat < (g.getD v.2.toNat []).length) = true := by
    rw [rect_row_length hrect (by omega : v.2.toNat < gh)]
    simp only [decide_eq_true_eq]
    omega
  rw [h1, h2, h3, h4]
  simp

lemma dirs_ne_zero : ∀ e ∈ dirs, e ≠ ((0 : ℤ), (0 : ℤ)) := by
  decide

lemma add_dir_ne_self (u : Point) {e : Point} (he : e ∈ dirs) : u + e ≠ u := by
  intro hcontra
  have he0 : e = ((0 : ℤ), (0 : ℤ)) := by
    have h1 := congrArg Prod.fst hcontra
    have h2 := congrArg Prod.snd hcontra
    simp only [Prod.fst_add, Prod.snd_add] at h1 h2
    refine Prod.ext ?_ ?_ <;> simp <;> omega
  exact dirs_ne_zero e he he0

lemma reachLe_zero_iff {g : Grid} {s v : Point} : reachLe g s 0 v = true ↔ v = s := by
  simp [reachLe]

lemma reachLe_succ_iff {g : Grid} {s v : Point} {n : ℕ} :
    reachLe g s (n + 1) v = true ↔
      reachLe g s n v = true
        ∨ (freeB g v = true ∧ ∃ e ∈ dirs, reachLe g s n (v - e) = true) := by
  rw [reachLe]
  simp [List.any_eq_true]

lemma reachLe_mono {g : Grid} {s v : Point} {n : ℕ} (h : reachLe g s n v = true) :
    reachLe g s (n + 1) v = true :=
  reachLe_succ_iff.mpr (Or.inl h)

lemma reachLe_mono_le {g : Grid} {s v : Point} {n m : ℕ} (hnm : n ≤ m)
    (h : reachLe g s n v = true) : reachLe g s m v = true := by
  induction m with
  | zero =>
      have : n = 0 := by omega
      rwa [this] at h
  | succ m ih =>
      rcases Nat.lt_or_ge n (m + 1) with hlt | hge
      · exact reachLe_mono (ih (by omega))
      · have : n = m + 1 := by omega
        rwa [this] at h

lemma reachLe_step {g : Grid} {s u : Point} {n : ℕ} {e : Point}
    (h : reachLe g s n u = true) (he : e ∈ dirs) (hf : freeB g (u + e) = true) :
    reachLe g s (n + 1) (u + e) = true := by
  refine reachLe_succ_iff.mpr (Or.inr ⟨hf, e, he, ?_⟩)
  rwa [add_sub_cancel_right]

lemma reachLe_inB {g : Grid} {gw gh : ℕ} {s : Point} (hrect : Rect g gw gh)
    (hs : InB gw gh s) {n : ℕ} {v : Point} (h : reachLe g s n v = true) :
    InB gw gh v := by
  induction n generalizing v with
  | zero => rwa [reachLe_zero_iff.mp h]
  | succ n ih =>
      rcases reachLe_succ_iff.mp h with h | ⟨hf, _⟩
      · exact ih h
      · exact freeB_inB hrect hf

/-- Number of visited cells recorded in a distance array. -/
def countVis (N : ℕ) (d : ℕ → ℤ) : ℕ :=
  (List.range N).countP fun i => !(decide (d i = -1))

/-- Number of unvisited cells. -/
def countNeg (N : ℕ) (d : ℕ → ℤ) : ℕ :=
  (List.range N).countP fun i => decide (d i = -1)

lemma countP_update_of_mem {l : List ℕ} (hl : l.Nodup) {j0 : ℕ} (hj : j0 ∈ l)
    (d : ℕ → ℤ) (v : ℤ) (p : ℤ → Bool) :
    l.countP (fun i => p ((fun j => if j = j0 then v else d j) i))
      = l.countP (fun i => p (d i)) + (if p v then 1 else 0)
          - (if p (d j0) then 1 else 0) := by
  induction l with
  | nil => simp at hj
  | cons a t ih =>
      rw [List.countP_cons, List.countP_cons]
      rcases List.mem_cons.mp hj with heq | hjt
      · subst heq
        have hat : j0 ∉ t := (List.nodup_cons.mp hl).1
        have ht : t.countP (fun i => p ((fun j => if j = j0 then v else d j) i))
            = t.countP (fun i => p (d i)) := by
          apply countP_congr_mem
          intro x hx
          have hxa : x ≠ j0 := fun hcontra => hat (hcontra ▸ hx)
          simp [hxa]
        rw [ht]
        simp only [if_pos rfl]
        by_cases hpv : p v = true <;> by_cases hpda : p (d j0) = true <;>
          simp [hpv, hpda] <;> omega
      · have ha : a ≠ j0 := by
          intro hcontra
          exact (List.nodup_cons.mp hl).1 (hcontra ▸ hjt)
        rw [ih (List.nodup_cons.mp hl).2 hjt]
        have hcount : (if p (d j0) = true then 1 else 0)
            ≤ t.countP (fun i => p (d i)) := by
          by_cases hpd : p (d j0) = true
          · simp only [hpd, if_pos]
            rw [List.countP_eq_length_filter]
            have hmem : j0 ∈ t.filter (fun i => p (d i)) := by
              rw [List.mem_filter]
              exact ⟨hjt, hpd⟩
            have := List.length_pos_of_mem hmem
            omega
          · simp [hpd]
        simp only [ha, if_false]
        by_cases hpa : p (d a) = true <;> simp [hpa] <;> omega

lemma countVis_update {N : ℕ} {d : ℕ → ℤ} {j0 : ℕ} (hj : j0 < N) (hd : d j0 = -1)
    {v : ℤ} (hv : v ≠ -1) :
    countVis N (fun j => if j = j0 then v else d j) = countVis N d + 1 := by
  unfold countVis
  rw [countP_update_of_mem (List.nodup_range N) (List.mem_range.mpr hj) d v
    (fun z => !(decide (z = -1)))]
  simp [hd, hv]

lemma countNeg_update {N : ℕ} {d : ℕ → ℤ} {j0 : ℕ} (hj : j0 < N) (hd : d j0 = -1)
    {v : ℤ} (hv : v ≠ -1) :
    countNeg N (fun j => if j = j0 then v else d j) = countNeg N d - 1 := by
  unfold countNeg
  rw [countP_update_of_mem (List.nodup_range N) (List.mem_range.mpr hj) d v
    (fun z => decide (z = -1))]
  simp [hd, hv]

lemma countVis_le {N : ℕ} (d : ℕ → ℤ) : countVis N d ≤ N := by
  unfold countVis
  calc (List.range N).countP _ ≤ (List.range N).length := List.countP_le_length _
  _ = N := List.length_range N

lemma countNeg_pos_of_unvisited {N : ℕ} {d : ℕ → ℤ} {j0 : ℕ} (hj : j0 < N)
    (hd : d j0 = -1) : 1 ≤ countNeg N d := by
  unfold countNeg
  rw [List.countP_eq_length_filter]
  have hmem : j0 ∈ (List.range N).filter (fun i => decide (d i = -1)) := by
    rw [List.mem_filter]
    exact ⟨List.mem_range.mpr hj, by simp [hd]⟩
  have := List.length_pos_of_mem hmem
  omega

/-- The BFS loop invariant over the working state.  `D v` abbreviates
`st.dist (npidx gw v)` below. -/
structure Inv (g : Grid) (gw gh : ℕ) (start : Point) (st : BfsState) : Prop where
  qInB : ∀ v ∈ st.queue, InB gw gh v
  qNodup : st.queue.Nodup
  qVis : ∀ v ∈ st.queue, 0 ≤ st.dist (npidx gw v)
  dStart : st.dist (npidx gw start) = 0
  dZero : ∀ v, InB gw gh v → st.dist (npidx gw v) = 0 → v = start
  dLow : ∀ v, InB gw gh v → -1 ≤ st.dist (npidx gw v)
  dCard : ∀ v, InB gw gh v →
      st.dist (npidx gw v) < (countVis (gw * gh) st.dist : ℤ)
  sound : ∀ v, InB gw gh v → 0 ≤ st.dist (npidx gw v) →
      reachLe g start (st.dist (npidx gw v)).toNat v = true
  seg : ∃ k : ℤ, 0 ≤ k ∧ ∃ qa qb, st.queue = qa ++ qb
      ∧ (∀ v ∈ qa, st.dist (npidx gw v) = k)
      ∧ (∀ v ∈ qb, st.dist (npidx gw v) = k + 1)
  band : ∀ w0 rest0, st.queue = w0 :: rest0 → ∀ v, InB gw gh v →
      0 ≤ st.dist (npidx gw v) →
      st.dist (npidx gw v) ≤ st.dist (npidx gw w0) + 1
  closure : ∀ u, InB gw gh u → 0 ≤ st.dist (npidx gw u) → u ∉ st.queue →
      ∀ e ∈ dirs, freeB g (u + e) = true →
        0 ≤ st.dist (npidx gw (u + e))
          ∧ st.dist (npidx gw (u + e)) ≤ st.dist (npidx gw u) + 1
  lite : ∀ w0 rest0, st.queue = w0 :: rest0 → ∀ (n : ℕ) (v : Point),
      reachLe g start n v = true → (n : ℤ) < st.dist (npidx gw w0) →
      0 ≤ st.dist (npidx gw v) ∧ st.dist (npidx gw v) ≤ (n : ℤ)
  parOk : ∀ v, InB gw gh v → 1 ≤ st.dist (npidx gw v) →
      InB gw gh (st.par (npidx gw v))
        ∧ st.dist (npidx gw (st.par (npidx gw v))) = st.dist (npidx gw v) - 1
        ∧ ∃ e ∈ dirs, v = st.par (npidx gw v) + e

/-- Loop measure: unvisited cells plus queue length; strictly decreasing. -/
def bfsMeasure (N : ℕ) (st : BfsState) : ℕ := countNeg N st.dist + st.queue.length

/-- Re-bracketing of the queue segments after reading off the front. -/
lemma seg_pop {g : Grid} {gw gh : ℕ} {start : Point} {st : BfsState}
    (hInv : Inv g gw gh start st) {u : Point} {rest : List Point}
    (hq : st.queue = u :: rest) :
    0 ≤ st.dist (npidx gw u)
      ∧ ∃ qa qb, rest = qa ++ qb
        ∧ (∀ v ∈ qa, st.dist (npidx gw v) = st.dist (npidx gw u))
        ∧ (∀ v ∈ qb, st.dist (npidx gw v) = st.dist (npidx gw u) + 1) := by
  obtain ⟨k, hk0, qa, qb, hsplit, hqa, hqb⟩ := hInv.seg
  rw [hq] at hsplit
  cases qa with
  | nil =>
      cases qb with
      | nil => simp at hsplit
      | cons b qb2 =>
          simp only [List.nil_append, List.cons.injEq] at hsplit
          obtain ⟨hub, hrest⟩ := hsplit
          have hdu : st.dist (npidx gw u) = k + 1 := by
            rw [hub]
            exact hqb b (by simp)
          refine ⟨by omega, qb2, [], by simp [hrest], ?_, by simp⟩
          intro v hv
          rw [hdu]
          exact hqb v (by simp [hv])
  | cons a qa2 =>
      simp only [List.cons_append, List.cons.injEq] at hsplit
      obtain ⟨hua, hrest⟩ := hsplit
      have hdu : st.dist (npidx gw u) = k := by
        rw [hua]
        exact hqa a (by simp)
      refine ⟨by omega, qa2, qb, hrest, ?_, ?_⟩
      · intro v hv
        rw [hdu]
        exact hqa v (by simp [hv])
      · intro v hv
        rw [hdu]
        exact hqb v hv

/-- Effect of one neighbor relaxation: either the neighbor is a fresh free
in-range cell and gets distance `k+1`, parent `u`, and a queue slot, or the
state is unchanged. -/
lemma bfsRelax_spec {g : Grid} {gw gh N : ℕ} {u : Point} (hrect : Rect g gw gh)
    (hn : N = gw * gh) (hu : InB gw gh u) (st : BfsState) (e : Point) {k : ℤ}
    (hcur : st.dist (npidx gw u) = k) :
    ∃ st2, bfsRelax N gw gh g u st e = some st2 ∧
      ((freeB g (u + e) = true ∧ InB gw gh (u + e)
          ∧ st.dist (npidx gw (u + e)) = -1
          ∧ st2.dist = (fun j => if j = npidx gw (u + e) then k + 1 else st.dist j)
          ∧ st2.par = (fun j => if j = npidx gw (u + e) then u else st.par j)
          ∧ st2.queue = st.queue ++ [u + e])
        ∨ ((freeB g (u + e) = false ∨ st.dist (npidx gw (u + e)) ≠ -1) ∧ st2 = st)) := by
  subst hn
  unfold bfsRelax
  have hpt : ((u.1 + e.1, u.2 + e.2) : Point) = u + e := rfl
  by_cases hguard : u.1 + e.1 < 0 ∨ u.2 + e.2 < 0
      ∨ (gw : ℤ) ≤ u.1 + e.1 ∨ (gh : ℤ) ≤ u.2 + e.2
  · refine ⟨st, by rw [if_pos hguard], Or.inr ⟨Or.inl ?_, rfl⟩⟩
    by_contra hf
    have hinb := freeB_inB hrect (by
      cases hfe : freeB g (u + e)
      · exact absurd hfe hf
      · rfl)
    obtain ⟨h1, h2, h3, h4⟩ := hinb
    simp only [Prod.fst_add, Prod.snd_add] at h1 h2 h3 h4
    omega
  · have hinb : InB gw gh (u + e) := by
      push_neg at hguard
      obtain ⟨h1, h2, h3, h4⟩ := hguard
      exact ⟨by simpa using h1, by simpa using h3, by simpa using h2, by simpa using h4⟩
    rw [if_neg hguard]
    have hgrid : gridAt g (u.1 + e.1) (u.2 + e.2) = freeB g (u + e) := by
      unfold gridAt
      rw [freeB_cell hrect hinb]
      rfl
    by_cases hfree : freeB g (u + e) = true
    · rw [hgrid, hfree]
      simp only [Bool.true_eq_false, if_false]
      rw [hpt, rd_inB st.dist hinb]
      simp only []
      by_cases hvis : st.dist (npidx gw (u + e)) = -1
      · rw [if_neg (by simpa using hvis), rd_inB st.dist hu, hcur]
        simp only []
        rw [wr_inB st.dist hinb (k + 1)]
        simp only []
        rw [wr_inB st.par hinb u]
        simp only []
        exact ⟨_, rfl, Or.inl ⟨by simp [hfree], hinb, hvis, rfl, rfl, rfl⟩⟩
      · rw [if_pos hvis]
        exact ⟨st, rfl, Or.inr ⟨Or.inr hvis, rfl⟩⟩
    · have hfree2 : freeB g (u + e) = false := by
        cases hfe : freeB g (u + e)
        · rfl
        · exact absurd hfe hfree
      rw [hgrid, hfree2, if_pos rfl]
      exact ⟨st, rfl, Or.inr ⟨Or.inl (by simp [hfree2]), rfl⟩⟩

lemma npidx_lt {gw gh : ℕ} {p : Point} (hp : InB gw gh p) : npidx gw p < gw * gh := by
  obtain ⟨h0, hlt, htn⟩ := pidx_inB hp
  omega

/-- State of the four-neighbor processing of `u` relative to the state `st0`
at the start of the visit (`k` is `u`'s recorded distance). -/
structure MidInv (g : Grid) (gw gh : ℕ) (u : Point) (k : ℤ) (st0 st : BfsState) : Prop where
  cases : ∀ v, InB gw gh v →
      (st.dist (npidx gw v) = st0.dist (npidx gw v)
          ∧ st.par (npidx gw v) = st0.par (npidx gw v))
        ∨ (st0.dist (npidx gw v) = -1 ∧ st.dist (npidx gw v) = k + 1
            ∧ st.par (npidx gw v) = u ∧ freeB g v = true ∧ ∃ e ∈ dirs, v = u + e)
  queueExt : ∃ pushed, st.queue = st0.queue ++ pushed
      ∧ ∀ v ∈ pushed, InB gw gh v ∧ st0.dist (npidx gw v) = -1
  queueVis : ∀ w ∈ st.queue, 0 ≤ st.dist (npidx gw w)
  queueNodup : st.queue.Nodup
  queueInB : ∀ w ∈ st.queue, InB gw gh w
  uDist : st.dist (npidx gw u) = k
  meas : countNeg (gw * gh) st.dist + st.queue.length
      = countNeg (gw * gh) st0.dist + st0.queue.length
  mCard : ∀ v, InB gw gh v → st.dist (npidx gw v) < (countVis (gw * gh) st.dist : ℤ)
  fresh : ∀ v, InB gw gh v → st0.dist (npidx gw v) = -1 →
      0 ≤ st.dist (npidx gw v) → v ∈ st.queue

lemma bfsVisit_go {g : Grid} {gw gh N : ℕ} {u : Point} {k : ℤ} {st0 : BfsState}
    (hrect : Rect g gw gh) (hn : N = gw * gh) (hu : InB gw gh u) (hk0 : 0 ≤ k)
    (hlow : ∀ v, InB gw gh v → -1 ≤ st0.dist (npidx gw v)) :
    ∀ es : List Point, (∀ e ∈ es, e ∈ dirs) → ∀ st, MidInv g gw gh u k st0 st →
      ∃ st2, List.foldlM (bfsRelax N gw gh g u) st es = some st2
        ∧ MidInv g gw gh u k st0 st2
        ∧ (∀ e ∈ es, freeB g (u + e) = true → 0 ≤ st2.dist (npidx gw (u + e)))
        ∧ (∀ v, InB gw gh v → 0 ≤ st.dist (npidx gw v) →
            st2.dist (npidx gw v) = st.dist (npidx gw v)) := by
  intro es
  induction es with
  | nil =>
      intro _ st mid
      exact ⟨st, rfl, mid, by simp, fun v _ _ => rfl⟩
  | cons e es2 ih =>
      intro hes st mid
      have he : e ∈ dirs := hes e (by simp)
      obtain ⟨st1, hst1, hcase⟩ :=
        bfsRelax_spec hrect hn hu st e mid.uDist
      have hk1ne : k + 1 ≠ -1 := by omega
      rcases hcase with ⟨hfree, hinb0, hvis, hdist1, hpar1, hq1⟩ | ⟨hside, hid⟩
      · -- fresh neighbor pushed
        set v0 := u + e with hv0def
        have hst0vis : st0.dist (npidx gw v0) = -1 := by
          rcases mid.cases v0 hinb0 with ⟨hd, _⟩ | ⟨_, hd, _⟩
          · rw [← hd]
            exact hvis
          · rw [hd] at hvis
            exact absurd hvis hk1ne
        have hunv0 : u ≠ v0 := fun hcontra => add_dir_ne_self u he hcontra.symm
        have hnotq : v0 ∉ st.queue := fun hmem => by
          have := mid.queueVis v0 hmem
          omega
        have hmid1 : MidInv g gw gh u k st0 st1 := by
          refine ⟨?_, ?_, ?_, ?_, ?_, ?_, ?_, ?_, ?_⟩
          · intro v hv
            by_cases hvv : v = v0
            · subst hvv
              refine Or.inr ⟨hst0vis, ?_, ?_, hfree, ⟨e, he, rfl⟩⟩
              · rw [hdist1]
                simp
              · rw [hpar1]
                simp
            · have hne : npidx gw v ≠ npidx gw v0 :=
                fun hcontra => hvv (npidx_inj hv hinb0 hcontra)
              have hd : st1.dist (npidx gw v) = st.dist (npidx gw v) := by
                rw [hdist1]
                simp [hne]
              have hp : st1.par (npidx gw v) = st.par (npidx gw v) := by
                rw [hpar1]
                simp [hne]
              rcases mid.cases v hv with ⟨h1, h2⟩ | ⟨h1, h2, h3, h4, h5⟩
              · exact Or.inl ⟨by rw [hd, h1], by rw [hp, h2]⟩
              · exact Or.inr ⟨h1, by rw [hd, h2], by rw [hp, h3], h4, h5⟩
          · obtain ⟨pushed, hpq, hprops⟩ := mid.queueExt
            refine ⟨pushed ++ [v0], ?_, ?_⟩
            · rw [hq1, hpq, List.append_assoc]
            · intro v hv
              rcases List.mem_append.mp hv with hv | hv
              · exact hprops v hv
              · rw [List.mem_singleton.mp hv]
                exact ⟨hinb0, hst0vis⟩
          · intro w hw
            rw [hq1] at hw
            rcases List.mem_append.mp hw with hw | hw
            · have hwo := mid.queueVis w hw
              have hwInB := mid.queueInB w hw
              have hne : npidx gw w ≠ npidx gw v0 := by
                intro hcontra
                have heqw : w = v0 := npidx_inj hwInB hinb0 hcontra
                rw [heqw] at hwo
                omega
              rw [hdist1]
              simp only [hne, if_neg, if_false]
              exact hwo
            · rw [List.mem_singleton.mp hw, hdist1]
              simp only [if_pos]
              omega
          · rw [hq1]
            rw [List.nodup_append]
            exact ⟨mid.queueNodup, List.nodup_singleton v0,
              fun a ha hb => by
                rw [List.mem_singleton.mp hb] at ha
                exact hnotq ha⟩
          · intro w hw
            rw [hq1] at hw
            rcases List.mem_append.mp hw with hw | hw
            · exact mid.queueInB w hw
            · rw [List.mem_singleton.mp hw]
              exact hinb0
          · have hne : npidx gw u ≠ npidx gw v0 :=
              fun hcontra => hunv0 (npidx_inj hu hinb0 hcontra)
            rw [hdist1]
            simp only [hne, if_neg, if_false]
            exact mid.uDist
          · have hlt : npidx gw v0 < gw * gh := npidx_lt hinb0
            have hcn : countNeg (gw * gh) st1.dist = countNeg (gw * gh) st.dist - 1 := by
              rw [hdist1]
              exact countNeg_update hlt hvis hk1ne
            have hpos : 1 ≤ countNeg (gw * gh) st.dist :=
              countNeg_pos_of_unvisited hlt hvis
            have hq1len : st1.queue.length = st.queue.length + 1 := by
              rw [hq1]
              simp
            have := mid.meas
            omega
          · have hlt : npidx gw v0 < gw * gh := npidx_lt hinb0
            have hcv : countVis (gw * gh) st1.dist = countVis (gw * gh) st.dist + 1 := by
              rw [hdist1]
              exact countVis_update hlt hvis hk1ne
            intro v hv
            rw [hcv]
            by_cases hvv : v = v0
            · subst hvv
              rw [hdist1]
              simp only [if_pos rfl]
              have := mid.mCard u hu
              rw [mid.uDist] at this
              push_cast
              omega
            · have hne : npidx gw v ≠ npidx gw v0 :=
                fun hcontra => hvv (npidx_inj hv hinb0 hcontra)
              rw [hdist1]
              simp only [hne, if_neg, if_false]
              have := mid.mCard v hv
              push_cast
              push_cast at this
              omega
          · intro v hv hv0dist hv1dist
            by_cases hvv : v = v0
            · subst hvv
              rw [hq1]
              simp
            · have hne : npidx gw v ≠ npidx gw v0 :=
                fun hcontra => hvv (npidx_inj hv hinb0 hcontra)
              have hd : st1.dist (npidx gw v) = st.dist (npidx gw v) := by
                rw [hdist1]
                simp [hne]
              rw [hd] at hv1dist
              have := mid.fresh v hv hv0dist hv1dist
              rw [hq1]
              exact List.mem_append.mpr (Or.inl this)
        obtain ⟨st2, hst2, hmid2, hper, hpres⟩ := ih (fun x hx => hes x (by simp [hx])) st1 hmid1
        refine ⟨st2, ?_, hmid2, ?_, ?_⟩
        · rw [List.foldlM_cons, hst1]
          simpa using hst2
        · intro x hx hfx
          rcases List.mem_cons.mp hx with hxe | hxes
          · subst hxe
            have h1 : st1.dist (npidx gw (u + x)) = k + 1 := by
              rw [hdist1]
              simp
            have h2 := hpres (u + x) hinb0 (by omega)
            omega
          · exact hper x hxes hfx
        · intro v hv hvd
          have hne : npidx gw v ≠ npidx gw v0 := by
            intro hcontra
            have : v = v0 := npidx_inj hv hinb0 hcontra
            subst this
            omega
          have h1 : st1.dist (npidx gw v) = st.dist (npidx gw v) := by
            rw [hdist1]
            simp [hne]
          rw [hpres v hv (by omega), h1]
      · -- state unchanged
        rw [hid] at hst1
        obtain ⟨st2, hst2, hmid2, hper, hpres⟩ := ih (fun x hx => hes x (by simp [hx])) st mid
        refine ⟨st2, ?_, hmid2, ?_, hpres⟩
        · rw [List.foldlM_cons, hst1]
          simpa using hst2
        · intro x hx hfx
          rcases List.mem_cons.mp hx with hxe | hxes
          · subst hxe
            rcases hside with hside | hside
            · rw [hfx] at hside
              exact absurd hside (by simp)
            · have hinbx : InB gw gh (u + x) := freeB_inB hrect hfx
              have hge : 0 ≤ st.dist (npidx gw (u + x)) := by
                rcases mid.cases (u + x) hinbx with ⟨h1, _⟩ | ⟨_, h1, _⟩
                · have := hlow (u + x) hinbx
                  omega
                · omega
              rw [hpres (u + x) hinbx hge]
              exact hge
          · exact hper x hxes hfx

/-- One loop iteration: popping `u` and visiting its neighbors restores the
invariant and decreases the measure by exactly one. -/
lemma bfs_step_inv {g : Grid} {gw gh N : ℕ} {start : Point} {st : BfsState}
    {u : Point} {rest : List Point}
    (hrect : Rect g gw gh) (hn : N = gw * gh) (hstart : InB gw gh start)
    (hInv : Inv g gw gh start st) (hq : st.queue = u :: rest) :
    ∃ st2, bfsVisit N gw gh g u ⟨st.dist, st.par, rest⟩ = some st2
      ∧ Inv g gw gh start st2
      ∧ bfsMeasure N st2 + 1 = bfsMeasure N st := by
  have hu : InB gw gh u := hInv.qInB u (by rw [hq]; simp)
  obtain ⟨hk0, qa, qb, hrest, hqa, hqb⟩ := seg_pop hInv hq
  set k := st.dist (npidx gw u) with hkdef
  set st0 : BfsState := ⟨st.dist, st.par, rest⟩ with hst0def
  have hmemrest : ∀ w ∈ rest, w ∈ st.queue := by
    intro w hw
    rw [hq]
    simp [hw]
  have hmid0 : MidInv g gw gh u k st0 st0 := by
    refine ⟨fun v _ => Or.inl ⟨rfl, rfl⟩, ⟨[], by simp, by simp⟩, ?_, ?_, ?_, rfl, rfl, ?_, ?_⟩
    · intro w hw
      exact hInv.qVis w (hmemrest w hw)
    · have := hInv.qNodup
      rw [hq] at this
      exact this.of_cons
    · intro w hw
      exact hInv.qInB w (hmemrest w hw)
    · exact hInv.dCard
    · intro v _ hneg hpos
      exfalso
      omega
  have hlow : ∀ v, InB gw gh v → -1 ≤ st0.dist (npidx gw v) := hInv.dLow
  obtain ⟨st2, hfold, mid2, hper, hpres⟩ :=
    bfsVisit_go hrect hn hu hk0 hlow dirs (fun e he => he) st0 hmid0
  have hcases := mid2.cases
  have hpres2 : ∀ v, InB gw gh v → 0 ≤ st.dist (npidx gw v) →
      st2.dist (npidx gw v) = st.dist (npidx gw v) := hpres
  have huDist2 : st2.dist (npidx gw u) = k := mid2.uDist
  obtain ⟨pushed, hpq, hpushprops⟩ := mid2.queueExt
  have hq2 : st2.queue = rest ++ pushed := hpq
  have hpushdist : ∀ v ∈ pushed, st2.dist (npidx gw v) = k + 1 := by
    intro v hv
    obtain ⟨hvInB, hv0⟩ := hpushprops v hv
    have hvq : v ∈ st2.queue := by
      rw [hq2]
      simp [hv]
    have hge := mid2.queueVis v hvq
    rcases hcases v hvInB with ⟨h1, _⟩ | ⟨_, h1, _⟩
    · exfalso
      rw [h1] at hge
      rw [show st0.dist (npidx gw v) = st.dist (npidx gw v) from rfl] at hv0
      rw [show st0.dist (npidx gw v) = st.dist (npidx gw v) from rfl] at hge
      omega
    · exact h1
  have hqdists : ∀ w ∈ st2.queue, st2.dist (npidx gw w) = k ∨ st2.dist (npidx gw w) = k + 1 := by
    intro w hw
    rw [hq2] at hw
    rcases List.mem_append.mp hw with hw | hw
    · rw [hrest] at hw
      rcases List.mem_append.mp hw with hw | hw
      · left
        rw [hpres2 w (hInv.qInB w (hmemrest w (by rw [hrest]; simp [hw])))
          (by rw [hqa w hw]; omega)]
        exact hqa w hw
      · right
        rw [hpres2 w (hInv.qInB w (hmemrest w (by rw [hrest]; simp [hw])))
          (by rw [hqb w hw]; omega)]
        exact hqb w hw
    · right
      exact hpushdist w hw
  have hvisbound : ∀ v, InB gw gh v → 0 ≤ st2.dist (npidx gw v) →
      st2.dist (npidx gw v) ≤ k + 1 := by
    intro v hv hge
    rcases hcases v hv with ⟨h1, _⟩ | ⟨_, h1, _⟩
    · rw [h1] at hge ⊢
      exact hInv.band u rest hq v hv hge
    · omega
  have hInv2 : Inv g gw gh start st2 := by
    refine ⟨mid2.queueInB, mid2.queueNodup, mid2.queueVis, ?_, ?_, ?_, mid2.mCard, ?_,
      ?_, ?_, ?_, ?_, ?_⟩
    · -- dStart
      rw [hpres2 start hstart (le_of_eq hInv.dStart.symm)]
      exact hInv.dStart
    · -- dZero
      intro v hv hzero
      rcases hcases v hv with ⟨h1, _⟩ | ⟨_, h1, _⟩
      · exact hInv.dZero v hv (by rw [← h1]; exact hzero)
      · rw [h1] at hzero
        omega
    · -- dLow
      intro v hv
      rcases hcases v hv with ⟨h1, _⟩ | ⟨_, h1, _⟩
      · rw [h1]
        exact hInv.dLow v hv
      · rw [h1]
        omega
    · -- sound
      intro v hv hge
      rcases hcases v hv with ⟨h1, _⟩ | ⟨hneg, h1, hpar, hfree, e, he, hve⟩
      · rw [h1] at hge ⊢
        exact hInv.sound v hv hge
      · rw [h1]
        have hsu := hInv.sound u hu (by omega)
        have := reachLe_step hsu he (by rw [← hve]; exact hfree)
        rw [← hve] at this
        have htn : (k + 1).toNat = k.toNat + 1 := by omega
        rwa [htn]
    · -- seg
      refine ⟨k, hk0, qa, qb ++ pushed, ?_, ?_, ?_⟩
      · rw [hq2, hrest, List.append_assoc]
      · intro v hv
        have hvq : v ∈ rest := by rw [hrest]; simp [hv]
        rw [hpres2 v (hInv.qInB v (hmemrest v hvq)) (by rw [hqa v hv]; omega)]
        exact hqa v hv
      · intro v hv
        rcases List.mem_append.mp hv with hv | hv
        · have hvq : v ∈ rest := by rw [hrest]; simp [hv]
          rw [hpres2 v (hInv.qInB v (hmemrest v hvq)) (by rw [hqb v hv]; omega)]
          exact hqb v hv
        · exact hpushdist v hv
    · -- band
      intro w0 rest0 hq0 v hv hge
      have hw0 : w0 ∈ st2.queue := by rw [hq0]; simp
      rcases hqdists w0 hw0 with hw0d | hw0d
      · rw [hw0d]
        exact hvisbound v hv hge
      · rw [hw0d]
        have := hvisbound v hv hge
        omega
    · -- closure
      intro u2 hu2 hge2 hnq2 e he hfge
      by_cases huu : u2 = u
      · subst huu
        have h1 := hper e he hfge
        have hinbe : InB gw gh (u2 + e) := freeB_inB hrect hfge
        refine ⟨h1, ?_⟩
        rw [huDist2]
        exact hvisbound _ hinbe h1
      · rcases hcases u2 hu2 with ⟨h1, _⟩ | ⟨hneg, h1, _⟩
        · have hgeold : 0 ≤ st.dist (npidx gw u2) := by rw [← h1]; exact hge2
          have hnqold : u2 ∉ st.queue := by
            rw [hq]
            intro hmem
            rcases List.mem_cons.mp hmem with hmem | hmem
            · exact huu hmem
            · exact hnq2 (by rw [hq2]; simp [hmem])
          obtain ⟨hc1, hc2⟩ := hInv.closure u2 hu2 hgeold hnqold e he hfge
          have hinbe : InB gw gh (u2 + e) := freeB_inB hrect hfge
          have heq := hpres2 (u2 + e) hinbe hc1
          refine ⟨by rw [heq]; exact hc1, ?_⟩
          rw [heq, h1]
          exact hc2
        · exfalso
          exact hnq2 (mid2.fresh u2 hu2 hneg hge2)
    · -- lite
      intro w0 rest0 hq0 n v hreach hlt
      have hw0 : w0 ∈ st2.queue := by rw [hq0]; simp
      have hvInB : InB gw gh v := reachLe_inB hrect hstart hreach
      have htrans : ∀ m : ℕ, (m : ℤ) < k → reachLe g start m v = true →
          0 ≤ st2.dist (npidx gw v) ∧ st2.dist (npidx gw v) ≤ (m : ℤ) := by
        intro m hm hr
        obtain ⟨ho1, ho2⟩ := hInv.lite u rest hq m v hr hm
        have heq := hpres2 v hvInB ho1
        rw [heq]
        exact ⟨ho1, ho2⟩
      rcases hqdists w0 hw0 with hw0d | hw0d
      · rw [hw0d] at hlt
        exact htrans n hlt hreach
      · rw [hw0d] at hlt
        rcases Nat.lt_or_ge n k.toNat with hnk | hnk
        · exact htrans n (by omega) hreach
        · have hnk2 : (n : ℤ) = k := by omega
          -- n = k case
          rcases Nat.eq_zero_or_pos n with hn0 | hnpos
          · subst hn0
            have hvs : v = start := reachLe_zero_iff.mp hreach
            rw [hvs, hpres2 start hstart (le_of_eq hInv.dStart.symm), hInv.dStart]
            omega
          · obtain ⟨m, hm⟩ := Nat.exists_eq_succ_of_ne_zero (by omega : n ≠ 0)
            subst hm
            rcases reachLe_succ_iff.mp hreach with hr | ⟨hfree, e, he, hr⟩
            · have := htrans m (by omega) hr
              omega
            · set u2 := v - e with hu2def
              have hu2InB : InB gw gh u2 := reachLe_inB hrect hstart hr
              obtain ⟨ho1, ho2⟩ := hInv.lite u rest hq m u2 hr (by omega)
              have hnqold : u2 ∉ st.queue := by
                intro hmem
                rcases List.mem_cons.mp (by rwa [hq] at hmem) with hmem2 | hmem2
                · rw [hmem2] at ho2
                  change st.dist (npidx gw u) ≤ (m : ℤ) at ho2
                  omega
                · rw [hrest] at hmem2
                  rcases List.mem_append.mp hmem2 with hmem3 | hmem3
                  · have := hqa u2 hmem3
                    omega
                  · have := hqb u2 hmem3
                    omega
              have hveq : u2 + e = v := by
                rw [hu2def]
                exact sub_add_cancel v e
              obtain ⟨hc1, hc2⟩ := hInv.closure u2 hu2InB ho1 hnqold e he
                (by rw [hveq]; exact hfree)
              rw [hveq] at hc1 hc2
              have heq := hpres2 v hvInB hc1
              rw [heq]
              constructor
              · exact hc1
              · push_cast
                omega
    · -- parOk
      intro v hv hge1
      rcases hcases v hv with ⟨h1, h2⟩ | ⟨hneg, h1, h2, _, e, he, hve⟩
      · have hgeold : 1 ≤ st.dist (npidx gw v) := by rw [← h1]; exact hge1
        obtain ⟨hp1, hp2, hp3⟩ := hInv.parOk v hv hgeold
        rw [h1, h2]
        refine ⟨hp1, ?_, hp3⟩
        rw [hpres2 _ hp1 (by omega)]
        exact hp2
      · rw [h1, h2]
        refine ⟨hu, ?_, ⟨e, he, hve⟩⟩
        rw [huDist2]
        omega
  refine ⟨st2, hfold, hInv2, ?_⟩
  have hm2 := mid2.meas
  rw [show countNeg (gw * gh) st0.dist = countNeg (gw * gh) st.dist from rfl,
    show st0.queue.length = rest.length from rfl] at hm2
  unfold bfsMeasure
  rw [hn, hq]
  simp only [List.length_cons]
  omega

/-- Facts about the distance/parent arrays the loop returns. -/
def BFSFinal (g : Grid) (gw gh : ℕ) (start goal : Point)
    (dist : ℕ → ℤ) (par : ℕ → Point) : Prop :=
  dist (npidx gw start) = 0
    ∧ (∀ v, InB gw gh v → -1 ≤ dist (npidx gw v))
    ∧ (∀ v, InB gw gh v → dist (npidx gw v) = 0 → v = start)
    ∧ (∀ v, InB gw gh v → dist (npidx gw v) < ((gw * gh : ℕ) : ℤ))
    ∧ (∀ v, InB gw gh v → 0 ≤ dist (npidx gw v) →
        reachLe g start (dist (npidx gw v)).toNat v = true)
    ∧ (∀ v, InB gw gh v → 1 ≤ dist (npidx gw v) →
        InB gw gh (par (npidx gw v))
          ∧ dist (npidx gw (par (npidx gw v))) = dist (npidx gw v) - 1
          ∧ ∃ e ∈ dirs, v = par (npidx gw v) + e)
    ∧ (∀ n : ℕ, reachLe g start n goal = true →
        0 ≤ dist (npidx gw goal) ∧ dist (npidx gw goal) ≤ (n : ℤ))

lemma inv_min_of_empty {g : Grid} {gw gh : ℕ} {start : Point} {st : BfsState}
    (hrect : Rect g gw gh) (hstart : InB gw gh start)
    (hInv : Inv g gw gh start st) (hq : st.queue = []) :
    ∀ (n : ℕ) (v : Point), reachLe g start n v = true →
      0 ≤ st.dist (npidx gw v) ∧ st.dist (npidx gw v) ≤ (n : ℤ) := by
  intro n
  induction n with
  | zero =>
      intro v hr
      rw [reachLe_zero_iff.mp hr, hInv.dStart]
      omega
  | succ n ih =>
      intro v hr
      rcases reachLe_succ_iff.mp hr with hr | ⟨hfree, e, he, hr⟩
      · have := ih v hr
        push_cast
        omega
      · obtain ⟨h1, h2⟩ := ih (v - e) hr
        have hu2 : InB gw gh (v - e) := reachLe_inB hrect hstart hr
        have hveq : v - e + e = v := sub_add_cancel v e
        obtain ⟨hc1, hc2⟩ := hInv.closure (v - e) hu2 h1
          (by rw [hq]; exact List.not_mem_nil _) e he (by rw [hveq]; exact hfree)
        rw [hveq] at hc1 hc2
        refine ⟨hc1, ?_⟩
        push_cast
        omega

lemma bfsLoop_ok {g : Grid} {gw gh N : ℕ} {start goal : Point}
    (hrect : Rect g gw gh) (hn : N = gw * gh) (hstart : InB gw gh start) :
    ∀ (fuel : ℕ) (st : BfsState), Inv g gw gh start st → bfsMeasure N st < fuel →
      ∃ dist par, bfsLoop N gw gh g goal fuel st = some (dist, par)
        ∧ BFSFinal g gw gh start goal dist par := by
  intro fuel
  induction fuel with
  | zero =>
      intro st _ hm
      omega
  | succ fuel ih =>
      intro st hInv hm
      have hfacts : ∀ dist par, st.dist = dist → st.par = par →
          (∀ n : ℕ, reachLe g start n goal = true →
            0 ≤ dist (npidx gw goal) ∧ dist (npidx gw goal) ≤ (n : ℤ)) →
          BFSFinal g gw gh start goal dist par := by
        intro dist par hdeq hpeq hmin
        subst hdeq
        subst hpeq
        refine ⟨hInv.dStart, hInv.dLow, hInv.dZero, ?_, hInv.sound, hInv.parOk, hmin⟩
        intro v hv
        have h1 := hInv.dCard v hv
        have h2 := countVis_le (N := gw * gh) st.dist
        push_cast at h1 ⊢
        omega
      cases hq : st.queue with
      | nil =>
          refine ⟨st.dist, st.par, ?_, ?_⟩
          · rw [bfsLoop, hq]
          · exact hfacts st.dist st.par rfl rfl
              (fun n hr => inv_min_of_empty hrect hstart hInv hq n goal hr)
      | cons u rest =>
          by_cases hgoal : u = goal
          · refine ⟨st.dist, st.par, ?_, ?_⟩
            · rw [bfsLoop, hq]
              simp only []
              rw [if_pos hgoal]
            · refine hfacts st.dist st.par rfl rfl ?_
              intro n hr
              obtain ⟨hk0, _⟩ := seg_pop hInv hq
              rw [hgoal] at hk0
              by_cases hlt : (n : ℤ) < st.dist (npidx gw goal)
              · have := hInv.lite u rest hq n goal hr (by rwa [hgoal])
                exact this
              · exact ⟨hk0, by omega⟩
          · obtain ⟨st2, hvisit, hInv2, hmeas⟩ := bfs_step_inv hrect hn hstart hInv hq
            obtain ⟨dist, par, hloop, hfin⟩ := ih st2 hInv2 (by omega)
            refine ⟨dist, par, ?_, hfin⟩
            rw [bfsLoop, hq]
            simp only []
            rw [if_neg hgoal]
            rw [show bfsVisit N gw gh g u { dist := st.dist, par := st.par, queue := rest }
              = some st2 from hvisit]
            exact hloop

lemma rebuild_ok {gw gh : ℕ} {start : Point} {dist : ℕ → ℤ} {par : ℕ → Point}
    (hstart : InB gw gh start)
    (hd0 : dist (npidx gw start) = 0)
    (hzero : ∀ v, InB gw gh v → dist (npidx gw v) = 0 → v = start)
    (hpar : ∀ v, InB gw gh v → 1 ≤ dist (npidx gw v) →
      InB gw gh (par (npidx gw v))
        ∧ dist (npidx gw (par (npidx gw v))) = dist (npidx gw v) - 1
        ∧ ∃ e ∈ dirs, v = par (npidx gw v) + e) :
    ∀ (d : ℕ), ∀ (fuel : ℕ) (v : Point) (acc : List Point), InB gw gh v →
      dist (npidx gw v) = (d : ℤ) → d < fuel →
      ∃ p, rebuild (gw * gh) gw par start fuel v acc = some (acc ++ p)
        ∧ p.length = d + 1
        ∧ p.head? = some v
        ∧ p.getLast? = some start
        ∧ List.Chain' (fun a b => ∃ e ∈ dirs, a = b + e) p := by
  intro d
  induction d with
  | zero =>
      intro fuel v acc hv hdv hfuel
      cases fuel with
      | zero => omega
      | succ f =>
          have hvs : v = start := hzero v hv (by exact_mod_cast hdv)
          have hvne : v ≠ ((-1 : ℤ), (-1 : ℤ)) := by
            intro heq
            have h1 := hv.1
            rw [heq] at h1
            norm_num at h1
          refine ⟨[v], ?_, rfl, rfl, by rw [hvs]; rfl, List.chain'_singleton v⟩
          rw [rebuild]
          simp only [if_neg hvne]
          rw [if_pos hvs]
  | succ d ih =>
      intro fuel v acc hv hdv hfuel
      cases fuel with
      | zero => omega
      | succ f =>
          have hvne : v ≠ ((-1 : ℤ), (-1 : ℤ)) := by
            intro heq
            have h1 := hv.1
            rw [heq] at h1
            norm_num at h1
          have hge1 : 1 ≤ dist (npidx gw v) := by
            rw [hdv]
            push_cast
            omega
          obtain ⟨hpInB, hpdist, e, he, hve⟩ := hpar v hv hge1
          have hvs : v ≠ start := by
            intro heq
            rw [heq, hd0] at hdv
            push_cast at hdv
            omega
          have hpd : dist (npidx gw (par (npidx gw v))) = (d : ℤ) := by
            rw [hpdist, hdv]
            push_cast
            ring
          obtain ⟨p2, hrun, hlen, hhead, hlast, hchain⟩ :=
            ih f (par (npidx gw v)) (acc ++ [v]) hpInB hpd (by omega)
          refine ⟨v :: p2, ?_, ?_, rfl, ?_, ?_⟩
          · rw [rebuild]
            simp only [if_neg hvne, if_neg hvs]
            rw [show rd (gw * gh) par (pidx gw v) = some (par (npidx gw v)) from
              rd_inB par hv]
            simp only []
            rw [hrun, List.append_assoc]
            rfl
          · simp [hlen]
          · cases p2 with
            | nil => simp at hlen
            | cons h2 t2 =>
                rw [List.getLast?_cons_cons]
                exact hlast
          · refine List.chain'_cons'.mpr ⟨?_, hchain⟩
            intro y hy
            rw [hhead] at hy
            have hyp : y = par (npidx gw v) := by
              simpa using hy.symm
            rw [hyp]
            exact ⟨e, he, hve⟩

lemma countP_lt_of_mem_false {α : Type} {l : List α} {p : α → Bool} {j : α}
    (hj : j ∈ l) (hp : p j = false) : l.countP p < l.length := by
  induction l with
  | nil => cases hj
  | cons a t ih =>
      rw [List.countP_cons, List.length_cons]
      rcases List.mem_cons.mp hj with heq | hj2
      · rw [← heq, hp]
        have := List.countP_le_length (p := p) (l := t)
        simp only [Bool.false_eq_true, if_false]
        omega
      · have h1 := ih hj2
        have h2 : (if p a = true then 1 else 0) ≤ 1 := by
          split
          · omega
          · omega
        omega

/-- The state seeded by `bfsPath`: distance 0 at `start`, −1 elsewhere, the
queue holding only `start`.  It satisfies the loop invariant. -/
lemma inv_init {g : Grid} {gw gh : ℕ} {start : Point}
    (hstart : InB gw gh start) :
    Inv g gw gh start
      ⟨fun j => if j = npidx gw start then 0 else -1,
       fun _ => ((-1 : ℤ), (-1 : ℤ)), [start]⟩ := by
  set dist0 : ℕ → ℤ := fun j => if j = npidx gw start then 0 else -1 with hdist0
  have hself : dist0 (npidx gw start) = 0 := if_pos rfl
  have hother : ∀ v, InB gw gh v → v ≠ start → dist0 (npidx gw v) = -1 :=
    fun v hv hvs => if_neg fun h => hvs (npidx_inj hv hstart h)
  have hcv : 1 ≤ countVis (gw * gh) dist0 := by
    unfold countVis
    refine List.countP_pos_iff.mpr ⟨npidx gw start,
      List.mem_range.mpr (npidx_lt hstart), ?_⟩
    rw [hself]
    norm_num
  refine ⟨?_, ?_, ?_, ?_, ?_, ?_, ?_, ?_, ?_, ?_, ?_, ?_, ?_⟩
  · intro v hv
    have hv2 : v ∈ [start] := hv
    rw [List.mem_singleton.mp hv2]
    exact hstart
  · exact List.nodup_singleton start
  · intro v hv
    have hv2 : v ∈ [start] := hv
    show 0 ≤ dist0 (npidx gw v)
    rw [List.mem_singleton.mp hv2, hself]
  · exact hself
  · intro v hv hz
    have hz2 : dist0 (npidx gw v) = 0 := hz
    by_contra hvs
    rw [hother v hv hvs] at hz2
    omega
  · intro v hv
    show -1 ≤ dist0 (npidx gw v)
    by_cases hvs : v = start
    · rw [hvs, hself]
      omega
    · rw [hother v hv hvs]
  · intro v hv
    show dist0 (npidx gw v) < (countVis (gw * gh) dist0 : ℤ)
    by_cases hvs : v = start
    · rw [hvs, hself]
      omega
    · rw [hother v hv hvs]
      omega
  · intro v hv hnn
    have hnn2 : 0 ≤ dist0 (npidx gw v) := hnn
    show reachLe g start (dist0 (npidx gw v)).toNat v = true
    by_cases hvs : v = start
    · rw [hvs, hself, Int.toNat_zero]
      exact reachLe_zero_iff.mpr rfl
    · rw [hother v hv hvs] at hnn2
      omega
  · refine ⟨0, le_refl 0, [start], [], rfl, ?_, ?_⟩
    · intro v hv
      show dist0 (npidx gw v) = 0
      rw [List.mem_singleton.mp hv, hself]
    · intro v hv
      exact absurd hv (List.not_mem_nil v)
  · intro w0 rest0 hq v hv hnn
    have hq2 : [start] = w0 :: rest0 := hq
    have hw0 : start = w0 := by
      injection hq2 with h1 _
    have hnn2 : 0 ≤ dist0 (npidx gw v) := hnn
    show dist0 (npidx gw v) ≤ dist0 (npidx gw w0) + 1
    rw [← hw0, hself]
    by_cases hvs : v = start
    · rw [hvs, hself]
      omega
    · rw [hother v hv hvs] at hnn2
      omega
  · intro u hu hnn hnq e he hfree
    exfalso
    have hnn2 : 0 ≤ dist0 (npidx gw u) := hnn
    have hnq2 : u ∉ [start] := hnq
    by_cases hus : u = start
    · exact hnq2 (by rw [hus]; exact List.mem_singleton_self start)
    · rw [hother u hu hus] at hnn2
      omega
  · intro w0 rest0 hq n v hr hlt
    exfalso
    have hq2 : [start] = w0 :: rest0 := hq
    have hw0 : start = w0 := by
      injection hq2 with h1 _
    have hlt2 : (n : ℤ) < dist0 (npidx gw w0) := hlt
    rw [← hw0, hself] at hlt2
    omega
  · intro v hv h1
    exfalso
    have h12 : 1 ≤ dist0 (npidx gw v) := h1
    by_cases hvs : v = start
    · rw [hvs, hself] at h12
      omega
    · rw [hother v hv hvs] at h12
      omega

lemma measure_init {gw gh : ℕ} {start : Point} (hstart : InB gw gh start) :
    bfsMeasure (gw * gh)
      ⟨fun j => if j = npidx gw start then 0 else -1,
       fun _ => ((-1 : ℤ), (-1 : ℤ)), [start]⟩ < gw * gh + 1 := by
  have hlt : countNeg (gw * gh) (fun j => if j = npidx gw start then (0 : ℤ) else -1)
      < gw * gh := by
    unfold countNeg
    have h := countP_lt_of_mem_false (l := List.range (gw * gh))
      (p := fun i => decide ((if i = npidx gw start then (0 : ℤ) else -1) = -1))
      (j := npidx gw start) (List.mem_range.mpr (npidx_lt hstart))
      (by simp only [if_pos rfl]; norm_num)
    rw [List.length_range] at h
    exact h
  show countNeg (gw * gh) (fun j => if j = npidx gw start then (0 : ℤ) else -1)
      + ([start] : List Point).length < gw * gh + 1
  rw [List.length_singleton]
  omega

/-- Master run lemma for `bfsPath` on a rectangular grid with in-bounds
endpoints: either the goal is reachable and the result is a shortest path
from `start` to `goal`, or it is unreachable and the result is `some []`. -/
lemma bfsPath_main {g : Grid} {gw gh : ℕ} {start goal : Point}
    (hrect : Rect g gw gh) (hstart : InB gw gh start) (hgoal : InB gw gh goal) :
    (∃ path d, bfsPath g start goal = some path
        ∧ reachLe g start d goal = true
        ∧ (∀ n, reachLe g start n goal = true → d ≤ n)
        ∧ path.length = d + 1
        ∧ path.head? = some start
        ∧ path.getLast? = some goal
        ∧ List.Chain' (fun a b => ∃ e ∈ dirs, b = a + e) path)
    ∨ ((∀ n, reachLe g start n goal = false) ∧ bfsPath g start goal = some []) := by
  have hgh0 : gh ≠ 0 := by
    obtain ⟨_, _, h3, h4⟩ := hgoal
    intro h
    rw [h] at h4
    push_cast at h4
    omega
  have hgl : g.length = gh := hrect.1
  have hgw : (g.headD []).length = gw := by
    cases g with
    | nil =>
        exfalso
        rw [← hrect.1] at hgh0
        exact hgh0 rfl
    | cons r g2 => exact hrect.2 r (List.mem_cons_self r g2)
  obtain ⟨dist, par, hloop, hfin⟩ := bfsLoop_ok hrect rfl hstart (gw * gh + 1)
      ⟨fun j => if j = npidx gw start then 0 else -1,
       fun _ => ((-1 : ℤ), (-1 : ℤ)), [start]⟩ (inv_init hstart) (measure_init hstart)
  obtain ⟨hd0, hdlow, hdzero, hdcard, hsound, hparOk, hmin⟩ := hfin
  have hwr : wr (gw * gh) (fun _ => (-1 : ℤ)) (pidx gw start) 0
      = some (fun j => if j = npidx gw start then 0 else -1) :=
    wr_inB (fun _ => (-1 : ℤ)) hstart 0
  have hrd : rd (gw * gh) dist (pidx gw goal) = some (dist (npidx gw goal)) :=
    rd_inB dist hgoal
  have heq : bfsPath g start goal
      = (if dist (npidx gw goal) = -1 then some []
         else match rebuild (gw * gh) gw par start (gw * gh + 1) goal [] with
              | none => none
              | some p => some p.reverse) := by
    simp only [bfsPath]
    rw [hgw, hgl, if_neg hgh0, hwr]
    simp only []
    rw [hloop]
    simp only []
    rw [hrd]
  by_cases hdg : dist (npidx gw goal) = -1
  · right
    have hunreach : ∀ n, reachLe g start n goal = false := by
      intro n
      cases hrl : reachLe g start n goal
      · rfl
      · exfalso
        obtain ⟨hge, _⟩ := hmin n hrl
        rw [hdg] at hge
        omega
    refine ⟨hunreach, ?_⟩
    rw [heq, if_pos hdg]
  · left
    have hge0 : 0 ≤ dist (npidx gw goal) := by
      have := hdlow goal hgoal
      omega
    have hdnat : dist (npidx gw goal) = (((dist (npidx gw goal)).toNat : ℕ) : ℤ) :=
      (Int.toNat_of_nonneg hge0).symm
    have hlt : (dist (npidx gw goal)).toNat < gw * gh + 1 := by
      have := hdcard goal hgoal
      omega
    obtain ⟨p, hrun, hplen, hphead, hplast, hpchain⟩ :=
      rebuild_ok hstart hd0 hdzero hparOk (dist (npidx gw goal)).toNat
        (gw * gh + 1) goal [] hgoal hdnat hlt
    refine ⟨p.reverse, (dist (npidx gw goal)).toNat, ?_, ?_, ?_, ?_, ?_, ?_, ?_⟩
    · rw [heq, if_neg hdg, hrun]
      simp only []
      rw [List.nil_append]
    · exact hsound goal hgoal hge0
    · intro n hn
      obtain ⟨_, hle⟩ := hmin n hn
      omega
    · rw [List.length_reverse, hplen]
    · rw [List.head?_reverse, hplast]
    · rw [List.getLast?_reverse, hphead]
    · exact List.chain'_reverse.mpr hpchain

instance (g : Grid) (gw gh : ℕ) : Decidable (Rect g gw gh) := by
  unfold Rect
  infer_instance

lemma unreach_example : ∀ (n : ℕ) (v : Point),
    reachLe [[true, false], [false, true]] ((0 : ℤ), (0 : ℤ)) n v = true →
    v = ((0 : ℤ), (0 : ℤ)) := by
  intro n
  induction n with
  | zero =>
      intro v hv
      exact reachLe_zero_iff.mp hv
  | succ n ih =>
      intro v hv
      rcases reachLe_succ_iff.mp hv with h | ⟨hfree, e, he, hr⟩
      · exact ih v h
      · exfalso
        have hve : v - e = ((0 : ℤ), (0 : ℤ)) := ih _ hr
        have hv2 : v = e := by
          have h2 : v - e = 0 := hve
          exact sub_eq_zero.mp h2
        rw [hv2] at hfree
        have he2 : e = ((1 : ℤ), (0 : ℤ)) ∨ e = ((-1 : ℤ), (0 : ℤ))
            ∨ e = ((0 : ℤ), (1 : ℤ)) ∨ e = ((0 : ℤ), (-1 : ℤ)) := by
          simpa [dirs] using he
        rcases he2 with rfl | rfl | rfl | rfl
        · exact absurd hfree (by decide)
        · exact absurd hfree (by decide)
        · exact absurd hfree (by decide)
        · exact absurd hfree (by decide)

/-- C1: on a rectangular grid with in-bounds endpoints, if the goal is
reachable from the start through free cells then `bfsPath` returns a
non-empty path that begins at `start`, ends at `goal`, moves by one of the
four unit directions at every step, and has `d + 1` cells where `d` is the
BFS shortest-path distance (the least number of steps in which the goal is
reachable). -/
theorem c1_bfs_shortest_path (g : Grid) (gw gh : ℕ) (start goal : Point)
    (hrect : Rect g gw gh) (hstart : InB gw gh start) (hgoal : InB gw gh goal)
    (n : ℕ) (hreach : reachLe g start n goal = true) :
    ∃ path d, bfsPath g start goal = some path
      ∧ path ≠ []
      ∧ path.head? = some start
      ∧ path.getLast? = some goal
      ∧ List.Chain' (fun a b => ∃ e ∈ dirs, b = a + e) path
      ∧ path.length = d + 1
      ∧ reachLe g start d goal = true
      ∧ (∀ m, reachLe g start m goal = true → d ≤ m) := by
  rcases bfsPath_main hrect hstart hgoal with
    ⟨path, d, h1, h2, h3, h4, h5, h6, h7⟩ | ⟨hfalse, _⟩
  · refine ⟨path, d, h1, ?_, h5, h6, h7, h4, h2, h3⟩
    intro hnil
    rw [hnil, List.length_nil] at h4
    omega
  · rw [hfalse n] at hreach
    exact absurd hreach Bool.false_ne_true

/-- Witness for C1 on the 2×2 grid with one blocked cell: the hypotheses
hold at the concrete input and the theorem applies. -/
theorem c1_bfs_shortest_path_witness :
    (Rect [[true, true], [false, true]] 2 2
      ∧ InB 2 2 ((0 : ℤ), (0 : ℤ)) ∧ InB 2 2 ((1 : ℤ), (1 : ℤ))
      ∧ reachLe [[true, true], [false, true]] ((0 : ℤ), (0 : ℤ)) 2
          ((1 : ℤ), (1 : ℤ)) = true)
    ∧ (∃ path d,
        bfsPath [[true, true], [false, true]] ((0 : ℤ), (0 : ℤ))
            ((1 : ℤ), (1 : ℤ)) = some path
          ∧ path ≠ []
          ∧ path.head? = some ((0 : ℤ), (0 : ℤ))
          ∧ path.getLast? = some ((1 : ℤ), (1 : ℤ))
          ∧ List.Chain' (fun a b => ∃ e ∈ dirs, b = a + e) path
          ∧ path.length = d + 1
          ∧ reachLe [[true, true], [false, true]] ((0 : ℤ), (0 : ℤ)) d
              ((1 : ℤ), (1 : ℤ)) = true
          ∧ (∀ m, reachLe [[true, true], [false, true]] ((0 : ℤ), (0 : ℤ)) m
              ((1 : ℤ), (1 : ℤ)) = true → d ≤ m)) :=
  ⟨⟨by decide, by decide, by decide, by decide⟩,
   c1_bfs_shortest_path [[true, true], [false, true]] 2 2
     ((0 : ℤ), (0 : ℤ)) ((1 : ℤ), (1 : ℤ))
     (by decide) (by decide) (by decide) 2 (by decide)⟩

/-- C4: on a rectangular grid with in-bounds endpoints, if the goal is
unreachable from the start (no step bound reaches it) then `bfsPath`
returns the empty path `some []` — the expected no-path outcome, not the
out-of-range outcome `none` and not a partial path. -/
theorem c4_bfs_unreachable (g : Grid) (gw gh : ℕ) (start goal : Point)
    (hrect : Rect g gw gh) (hstart : InB gw gh start) (hgoal : InB gw gh goal)
    (hunreach : ∀ n, reachLe g start n goal = false) :
    bfsPath g start goal = some [] := by
  rcases bfsPath_main hrect hstart hgoal with ⟨path, d, _, h2, _⟩ | ⟨_, h⟩
  · rw [hunreach d] at h2
    exact absurd h2 Bool.false_ne_true
  · exact h

/-- Witness for C4 on a 2×2 grid whose two free cells are diagonal, so the
goal is unreachable from the start. -/
theorem c4_bfs_unreachable_witness :
    bfsPath [[true, false], [false, true]] ((0 : ℤ), (0 : ℤ))
      ((1 : ℤ), (1 : ℤ)) = some [] :=
  c4_bfs_unreachable [[true, false], [false, true]] 2 2
    ((0 : ℤ), (0 : ℤ)) ((1 : ℤ), (1 : ℤ))
    (by decide) (by decide) (by decide)
    (fun n => by
      cases hrl : reachLe [[true, false], [false, true]] ((0 : ℤ), (0 : ℤ)) n
          ((1 : ℤ), (1 : ℤ))
      · rfl
      · exact absurd (unreach_example n ((1 : ℤ), (1 : ℤ)) hrl) (by decide))

/-- C10: when start and goal are in bounds on a rectangular grid, every
array and grid access of `bfsPath` is in range, so the embedding's
out-of-range outcome `none` does not occur; and the bound really is a
precondition, not something `bfsPath` checks: with an out-of-range start it
indexes the distance array out of range at once, reaching the `none`
branch. -/
theorem c10_bfs_inbounds_safety (g : Grid) (gw gh : ℕ) (start goal : Point) :
    (Rect g gw gh → InB gw gh start → InB gw gh goal →
      (bfsPath g start goal).isSome = true)
    ∧ bfsPath [[true]] ((0 : ℤ), (-1 : ℤ)) ((0 : ℤ), (0 : ℤ)) = none := by
  constructor
  · intro hrect hstart hgoal
    rcases bfsPath_main hrect hstart hgoal with ⟨path, _, h1, _⟩ | ⟨_, h1⟩
    · rw [h1]
      rfl
    · rw [h1]
      rfl
  · rfl

/-- Witness for C10: the in-bounds half applied on a concrete 2×2 grid,
together with the out-of-range half. -/
theorem c10_bfs_inbounds_safety_witness :
    (bfsPath [[true, true], [false, true]] ((0 : ℤ), (0 : ℤ))
        ((1 : ℤ), (1 : ℤ))).isSome = true
    ∧ bfsPath [[true]] ((0 : ℤ), (-1 : ℤ)) ((0 : ℤ), (0 : ℤ)) = none :=
  ⟨(c10_bfs_inbounds_safety [[true, true], [false, true]] 2 2
      ((0 : ℤ), (0 : ℤ)) ((1 : ℤ), (1 : ℤ))).1 (by decide) (by decide) (by decide),
   (c10_bfs_inbounds_safety [] 0 0 ((0 : ℤ), (0 : ℤ)) ((0 : ℤ), (0 : ℤ))).2⟩

end Maze
